import Mathlib

/-!
Verification development for the ARMOR header-diff tool.

The C++ sources are embedded shallowly: each C++ function of interest is
translated into an executable Lean definition over explicit data types.

  * `node.hpp` : `NodeKind`, `APINode` (attributes + children list).
  * `qualified_name_builder.cpp` : `QualifiedNameBuilder.push/pop/get`.
  * `ast_normalized_context.cpp` : `addNode` over the normalized tree map.
  * `tree_builder_utils.cpp` : `unwrapTypeLoc` over a model of clang TypeLoc.
  * `diffengine` (in astnormalizer.hpp related unit) : `difference`,
    `intersection`, `toJson`, `diffNodes`, `diffTrees`.
  * `report_utils.cpp` : the change describer and the report grouping.

Hash maps (`llvm::StringMap`, `std::unordered_multimap`) are modelled as
association lists with first-inserted-first-found semantics; ordered maps
(`std::map`, `std::multimap`) as sorted association lists.
-/

namespace Armor

/-! ## Data model: node.hpp -/

inductive NodeKind where
  | Namespace | Class | Struct | Union | Enum | Function | Method | Field
  | Typedef | TypeAlias | Parameter | TemplateParam | BaseClass | Variable
  | ReturnType | FunctionPointer | Enumerator | MacroNode | If | Elif | Ifdef
  | Ifndef | Elifndef | Else | Endif | Elifdef | Define | ConditionalCompilation
  | Unknown
deriving Repr, DecidableEq

inductive AccessSpec where
  | Public | Protected | Private | None
deriving Repr, DecidableEq

inductive APINodeStorageClass where
  | None | Static | Extern | Register | Auto
deriving Repr, DecidableEq

inductive ConstQualifier where
  | None | Const | ConstExpr
deriving Repr, DecidableEq

inductive VirtualQualifier where
  | None | Virtual | PureVirtual | Override
deriving Repr, DecidableEq

/-- The scalar attributes of `struct APINode` (node.hpp). -/
structure APIAttrs where
  kind : NodeKind := NodeKind.Unknown
  qualifiedName : String := ""
  typeName : String := ""
  dataType : String := ""
  value : String := ""
  access : AccessSpec := AccessSpec.None
  storage : APINodeStorageClass := APINodeStorageClass.None
  constQualifier : ConstQualifier := ConstQualifier.None
  virtualQualifier : VirtualQualifier := VirtualQualifier.None
  functionCallingConvention : String := ""
  isInline : Bool := false
  isPointer : Bool := false
  isReference : Bool := false
  isRValueRef : Bool := false
  isPacked : Bool := false
  USR : String := ""
  conditionString : String := ""
  bodyString : String := ""
  hash : String := ""
  isActive : Bool := false
deriving Repr, DecidableEq

/-- `struct APINode`: attributes plus the owned children vector. -/
inductive APINode where
  | mk (attrs : APIAttrs) (children : List APINode)
deriving Repr

def APINode.attrs : APINode → APIAttrs
  | .mk a _ => a

def APINode.children : APINode → List APINode
  | .mk _ c => c

def APINode.qualifiedName (n : APINode) : String := n.attrs.qualifiedName

def APINode.dataType (n : APINode) : String := n.attrs.dataType

def APINode.kind (n : APINode) : NodeKind := n.attrs.kind

theorem APINode.sizeOf_child_lt {c : APINode} {a : APIAttrs} {cs : List APINode}
    (h : c ∈ cs) : sizeOf c < sizeOf (APINode.mk a cs) := by
  have h1 : sizeOf c < sizeOf cs := List.sizeOf_lt_of_mem h
  simp only [APINode.mk.sizeOf_spec]
  omega

theorem APINode.sizeOf_child_lt' {c n : APINode} (h : c ∈ n.children) :
    sizeOf c < sizeOf n := by
  cases n with
  | mk a cs => exact APINode.sizeOf_child_lt h

/-- Strong induction over `APINode` through the nested children list. -/
theorem APINode.strongInd (P : APINode → Prop)
    (ih : ∀ (a : APIAttrs) (cs : List APINode), (∀ c ∈ cs, P c) → P (APINode.mk a cs)) :
    ∀ n, P n
  | .mk a cs => ih a cs (fun c hc =>
      have : sizeOf c < sizeOf (APINode.mk a cs) := APINode.sizeOf_child_lt hc
      APINode.strongInd P ih c)
termination_by n => sizeOf n

/-! ## Qualified-name builder: qualified_name_builder.cpp

The `llvm::SmallString` byte buffer is modelled as a `List Char`; the
`SmallVector<size_t>` offset stack as a `List Nat` whose head is the top
(the `back()` of the vector). -/

structure QualifiedNameBuilder where
  buffer : List Char
  offsets : List Nat
deriving Repr, DecidableEq

def qnbSep : List Char := [':', ':']

/-- `QualifiedNameBuilder::push`: records the current buffer size, then
appends `::` (if the buffer is non-empty) and the name. -/
def QualifiedNameBuilder.push (b : QualifiedNameBuilder) (name : List Char) :
    QualifiedNameBuilder :=
  { buffer := (if b.buffer.isEmpty then b.buffer else b.buffer ++ qnbSep) ++ name
    offsets := b.buffer.length :: b.offsets }

/-- `QualifiedNameBuilder::pop`: truncates the buffer back to the recorded
offset and drops it; a no-op on an empty offset stack. -/
def QualifiedNameBuilder.pop (b : QualifiedNameBuilder) : QualifiedNameBuilder :=
  match b.offsets with
  | [] => b
  | o :: rest => { buffer := b.buffer.take o, offsets := rest }

/-- `QualifiedNameBuilder::get` (and `getAsString`): the current buffer. -/
def QualifiedNameBuilder.get (b : QualifiedNameBuilder) : List Char := b.buffer

def QualifiedNameBuilder.emptyB : QualifiedNameBuilder := ⟨[], []⟩

/-! ## Normalized context: ast_normalized_context.cpp

`llvm::StringMap` is modelled as an association list; lookup returns the
first (only) binding of a key. -/

abbrev NormalizedTree := List (String × APINode)

def treeLookup (t : NormalizedTree) (key : String) : Option APINode :=
  match t with
  | [] => none
  | (k, v) :: rest => if k = key then some v else treeLookup rest key

/-- `ASTNormalizedContext::addNode`: `try_emplace` semantics — insert only
if the key is absent, and report whether insertion happened. -/
def addNode (t : NormalizedTree) (key : String) (node : APINode) :
    Bool × NormalizedTree :=
  if (treeLookup t key).isSome then (false, t) else (true, (key, node) :: t)

/-! ## Type unwrapper: tree_builder_utils.cpp, unwrapTypeLoc

The clang `TypeLoc` shapes inspected by the source are modelled as an
inductive: local qualifiers, pointer, the two references, parentheses, the
array family (all four array type classes peel the element location), and
an opaque terminal for every other type class. -/

inductive TypeLoc where
  | nullLoc
  | qualified (hasConst hasVolatile hasRestrict : Bool) (inner : TypeLoc)
  | pointer (pointee : TypeLoc)
  | lvalueRef (pointee : TypeLoc)
  | rvalueRef (pointee : TypeLoc)
  | paren (inner : TypeLoc)
  | array (element : TypeLoc)
  | terminal (name : String)
deriving Repr, DecidableEq

/-- The qualifier tokens pushed in source order: const, volatile, restrict. -/
def qualsTokens (c v r : Bool) : List String :=
  (if c then ["const "] else []) ++ (if v then ["volatile "] else []) ++
    (if r then ["restrict "] else [])

/-- The local-qualifier step of an iteration: when local qualifiers are
present, push their tokens and move to the unqualified location. -/
def peelQuals : TypeLoc → List String × TypeLoc
  | .qualified c v r inner =>
      if c || v || r then (qualsTokens c v r, inner)
      else ([], .qualified c v r inner)
  | t => ([], t)

/-- The `switch` step of an iteration: pointer, l-value reference, r-value
reference, parenthesised and array type classes peel one layer. -/
def peelSwitch : TypeLoc → Option (List String × TypeLoc)
  | .pointer p => some (["*"], p)
  | .lvalueRef p => some (["&"], p)
  | .rvalueRef p => some (["&&"], p)
  | .paren i => some ([], i)
  | .array e => some ([], e)
  | _ => none

theorem peelQuals_sizeOf_le (tl : TypeLoc) : sizeOf (peelQuals tl).2 ≤ sizeOf tl := by
  cases tl with
  | qualified c v r inner =>
      by_cases h : (c || v || r) = true
      · simp [peelQuals, h]
      · simp only [peelQuals, h]; simp
  | nullLoc => simp [peelQuals]
  | pointer p => simp [peelQuals]
  | lvalueRef p => simp [peelQuals]
  | rvalueRef p => simp [peelQuals]
  | paren i => simp [peelQuals]
  | array e => simp [peelQuals]
  | terminal s => simp [peelQuals]

theorem peelQuals_sizeOf_lt {tl : TypeLoc} (h : (peelQuals tl).1 ≠ []) :
    sizeOf (peelQuals tl).2 < sizeOf tl := by
  cases tl with
  | qualified c v r inner =>
      by_cases hq : (c || v || r) = true
      · simp [peelQuals, hq]
      · exfalso; apply h; simp [peelQuals, hq]
  | nullLoc => exact absurd rfl h
  | pointer p => exact absurd rfl h
  | lvalueRef p => exact absurd rfl h
  | rvalueRef p => exact absurd rfl h
  | paren i => exact absurd rfl h
  | array e => exact absurd rfl h
  | terminal s => exact absurd rfl h

theorem peelSwitch_sizeOf_lt {tl : TypeLoc} {m : List String} {t : TypeLoc}
    (h : peelSwitch tl = some (m, t)) : sizeOf t < sizeOf tl := by
  cases tl with
  | pointer p => simp [peelSwitch] at h; simp [← h.2]
  | lvalueRef p => simp [peelSwitch] at h; simp [← h.2]
  | rvalueRef p => simp [peelSwitch] at h; simp [← h.2]
  | paren i => simp [peelSwitch] at h; simp [← h.2]
  | array e => simp [peelSwitch] at h; simp [← h.2]
  | nullLoc => simp [peelSwitch] at h
  | qualified c v r inner => simp [peelSwitch] at h
  | terminal s => simp [peelSwitch] at h

/-- The `while (true)` loop of `unwrapTypeLoc`: each iteration attempts the
qualifier peel, then the switch; the loop exits when neither applied.
Returns the modifier tokens in peel order and the terminal location. -/
def unwrapLoop (tl : TypeLoc) : List String × TypeLoc :=
  match h : peelSwitch (peelQuals tl).2 with
  | some mt =>
      have : sizeOf mt.2 < sizeOf tl :=
        Nat.lt_of_lt_of_le (peelSwitch_sizeOf_lt (by rw [h]))
          (peelQuals_sizeOf_le tl)
      let rest := unwrapLoop mt.2
      ((peelQuals tl).1 ++ mt.1 ++ rest.1, rest.2)
  | none =>
      if hq : (peelQuals tl).1 = [] then ([], (peelQuals tl).2)
      else
        have : sizeOf (peelQuals tl).2 < sizeOf tl := peelQuals_sizeOf_lt hq
        let rest := unwrapLoop (peelQuals tl).2
        ((peelQuals tl).1 ++ rest.1, rest.2)
termination_by sizeOf tl

/-- `unwrapTypeLoc`: null input short-circuits; otherwise the loop runs and
the collected modifier tokens are emitted by popping the stack from the
back, i.e. concatenated in reverse peel order. -/
def unwrapTypeLoc (tl : TypeLoc) : String × TypeLoc :=
  match tl with
  | .nullLoc => ("", .nullLoc)
  | t =>
      let r := unwrapLoop t
      (String.join r.1.reverse, r.2)

/-! ## Structural diff engine (the diffengine translation unit)

The diff output is `nlohmann::json`; the records actually produced by the
engine are modelled by `DRec`: tagged node records (with the recognised
fields `qualifiedName`, `nodeType`, `dataType`, `tag`, `children`; an
absent optional field is `none`, absent `children` is `[]`) and the
field/oldValue/newValue entries produced by the per-node attribute diff. -/

inductive DRec where
  | node (qualifiedName : Option String) (nodeType : String)
         (dataType : Option String) (tag : Option String) (children : List DRec)
  | attr (field oldValue newValue : String)
deriving Repr

mutual

def DRec.decEq : (a b : DRec) → Decidable (a = b)
  | .node q1 n1 d1 t1 c1, .node q2 n2 d2 t2 c2 =>
      have hc : Decidable (c1 = c2) := DRec.decEqList c1 c2
      decidable_of_iff (q1 = q2 ∧ n1 = n2 ∧ d1 = d2 ∧ t1 = t2 ∧ c1 = c2)
        (by simp [DRec.node.injEq])
  | .node _ _ _ _ _, .attr _ _ _ => isFalse (by simp)
  | .attr _ _ _, .node _ _ _ _ _ => isFalse (by simp)
  | .attr f1 o1 v1, .attr f2 o2 v2 =>
      decidable_of_iff (f1 = f2 ∧ o1 = o2 ∧ v1 = v2) (by simp [DRec.attr.injEq])

def DRec.decEqList : (l1 l2 : List DRec) → Decidable (l1 = l2)
  | [], [] => isTrue rfl
  | [], _ :: _ => isFalse (by simp)
  | _ :: _, [] => isFalse (by simp)
  | x :: xs, y :: ys =>
      match DRec.decEq x y, DRec.decEqList xs ys with
      | isTrue h1, isTrue h2 => isTrue (by rw [h1, h2])
      | isFalse h1, _ => isFalse (by simp [h1])
      | _, isFalse h2 => isFalse (by simp [h2])

end

instance : DecidableEq DRec := DRec.decEq

def tagRemoved : String := "removed"

def tagAdded : String := "added"

def tagModified : String := "modified"

/-- `serialize(NodeKind)` (diff utilities; modelled from the §3.1 kind
names, the implementation unit is not under src/). -/
def kindStr : NodeKind → String
  | .Namespace => "Namespace"
  | .Class => "Class"
  | .Struct => "Struct"
  | .Union => "Union"
  | .Enum => "Enum"
  | .Function => "Function"
  | .Method => "Method"
  | .Field => "Field"
  | .Typedef => "Typedef"
  | .TypeAlias => "TypeAlias"
  | .Parameter => "Parameter"
  | .TemplateParam => "TemplateParam"
  | .BaseClass => "BaseClass"
  | .Variable => "Variable"
  | .ReturnType => "ReturnType"
  | .FunctionPointer => "FunctionPointer"
  | .Enumerator => "Enumerator"
  | .MacroNode => "Macro"
  | .If => "If"
  | .Elif => "Elif"
  | .Ifdef => "Ifdef"
  | .Ifndef => "Ifndef"
  | .Elifndef => "Elifndef"
  | .Else => "Else"
  | .Endif => "Endif"
  | .Elifdef => "Elifdef"
  | .Define => "Define"
  | .ConditionalCompilation => "ConditionalCompilation"
  | .Unknown => "Unknown"

abbrev KeyFn := APINode → String

/-- The `byQualifiedName` key lambda. -/
def byQualifiedName : KeyFn := fun n => n.qualifiedName

/-- The `byDatatype` key lambda. -/
def byDatatype : KeyFn := fun n => n.dataType

/-- `getKeyExtractor`: selects `byDatatype` for `Function` nodes and
`byQualifiedName` otherwise.  (Defined in the source; `diffNodes` does not
invoke it.) -/
def getKeyExtractor (n : APINode) : KeyFn :=
  if n.kind = NodeKind.Function then byDatatype else byQualifiedName

/-- `checkLayoutChange`. -/
def checkLayoutChange (n : APINode) : Bool := n.kind ≠ NodeKind.Enum

/-- `hasChildren`: a null or empty children vector means no children. -/
def hasChildrenB (n : APINode) : Bool := !n.children.isEmpty

/-- One `map_b.find(key)` plus `map_b.erase(it)` on the multimap, modelled
with first-inserted-first-found semantics: return the first element whose
key matches together with the remaining elements. -/
def findErase (f : KeyFn) (key : String) : List APINode →
    Option (APINode × List APINode)
  | [] => none
  | x :: xs =>
      if f x = key then some (x, xs)
      else
        match findErase f key xs with
        | some (y, rest) => some (y, x :: rest)
        | none => none

def intersectionGo (f : KeyFn) : List APINode → List APINode →
    List (APINode × APINode)
  | [], _ => []
  | x :: xs, mb =>
      match findErase f (f x) mb with
      | some (y, mb') => (x, y) :: intersectionGo f xs mb'
      | none => intersectionGo f xs mb

/-- `intersection(a, b, keyFunc)`: pairs each element of `a` (in order)
with one not-yet-consumed element of `b` of equal key. -/
def intersection (a b : List APINode) (f : KeyFn) : List (APINode × APINode) :=
  intersectionGo f a b

def differenceGo (f : KeyFn) : List APINode → List APINode → List APINode
  | [], _ => []
  | x :: xs, mb =>
      match findErase f (f x) mb with
      | some (_, mb') => differenceGo f xs mb'
      | none => x :: differenceGo f xs mb

/-- `difference(a, b, keyFunc)`: the elements of `a` left over after each
key occurrence in `b` cancels one occurrence in `a`. -/
def difference (a b : List APINode) (f : KeyFn) : List APINode :=
  differenceGo f a b

/-- `toJson(node)`: qualifiedName and dataType only when non-empty, the
serialized kind, and the recursively serialized children; no tag. -/
def toJsonRec : APINode → DRec
  | .mk a cs =>
      DRec.node (if a.qualifiedName = "" then none else some a.qualifiedName)
        (kindStr a.kind)
        (if a.dataType = "" then none else some a.dataType)
        none
        (cs.attach.map (fun c => toJsonRec c.1))
termination_by n => sizeOf n
decreasing_by
  exact APINode.sizeOf_child_lt c.2

/-- `get_json_from_node(node, tag)`: `toJson` plus the tag field. -/
def getJsonFromNode (n : APINode) (tag : String) : DRec :=
  match toJsonRec n with
  | .node qn nt dt _ ch => .node qn nt dt (some tag) ch
  | r => r

/-- Enum attribute values rendered as strings for the attribute diff. -/
def accessStr : AccessSpec → String
  | .Public => "Public"
  | .Protected => "Protected"
  | .Private => "Private"
  | .None => "None"

def storageStr : APINodeStorageClass → String
  | .None => "None"
  | .Static => "Static"
  | .Extern => "Extern"
  | .Register => "Register"
  | .Auto => "Auto"

def constStr : ConstQualifier → String
  | .None => "None"
  | .Const => "Const"
  | .ConstExpr => "ConstExpr"

def virtStr : VirtualQualifier → String
  | .None => "None"
  | .Virtual => "Virtual"
  | .PureVirtual => "PureVirtual"
  | .Override => "Override"

def boolStr (b : Bool) : String := if b then "true" else "false"

/-- One field comparison of the attribute diff: a differing field
contributes one field/oldValue/newValue entry. -/
def attrEntry (field oldV newV : String) : List DRec :=
  if oldV = newV then [] else [DRec.attr field oldV newV]

/-- Modelled from the spec: `APINode::diff` — its implementation unit
(node.cpp) is not under src/, only the declaration in node.hpp.  Per §4.4
the comparison is a field-by-field equality check over the §3.1 attribute
set, each differing field contributing a field/oldValue/newValue entry;
for `Function` nodes the comparison is restricted to the calling
convention, the storage qualifier and the inline flag (the return type and
the parameters are carried by synthesized children and handled by the
recursive engine). -/
def APINode.diff (a b : APINode) : List DRec :=
  if a.kind = NodeKind.Function then
    attrEntry "functionCallingConvention" a.attrs.functionCallingConvention
        b.attrs.functionCallingConvention ++
    attrEntry "storageQualifier" (storageStr a.attrs.storage)
        (storageStr b.attrs.storage) ++
    attrEntry "inline" (boolStr a.attrs.isInline) (boolStr b.attrs.isInline)
  else
    attrEntry "nodeType" (kindStr a.kind) (kindStr b.kind) ++
    attrEntry "typeName" a.attrs.typeName b.attrs.typeName ++
    attrEntry "dataType" a.attrs.dataType b.attrs.dataType ++
    attrEntry "value" a.attrs.value b.attrs.value ++
    attrEntry "access" (accessStr a.attrs.access) (accessStr b.attrs.access) ++
    attrEntry "storageQualifier" (storageStr a.attrs.storage)
        (storageStr b.attrs.storage) ++
    attrEntry "constQualifier" (constStr a.attrs.constQualifier)
        (constStr b.attrs.constQualifier) ++
    attrEntry "virtualQualifier" (virtStr a.attrs.virtualQualifier)
        (virtStr b.attrs.virtualQualifier) ++
    attrEntry "functionCallingConvention" a.attrs.functionCallingConvention
        b.attrs.functionCallingConvention ++
    attrEntry "inline" (boolStr a.attrs.isInline) (boolStr b.attrs.isInline) ++
    attrEntry "isPointer" (boolStr a.attrs.isPointer) (boolStr b.attrs.isPointer) ++
    attrEntry "isReference" (boolStr a.attrs.isReference)
        (boolStr b.attrs.isReference) ++
    attrEntry "isRValueRef" (boolStr a.attrs.isRValueRef)
        (boolStr b.attrs.isRValueRef) ++
    attrEntry "isPacked" (boolStr a.attrs.isPacked) (boolStr b.attrs.isPacked)

theorem findErase_mem_sub {f : KeyFn} {key : String} :
    ∀ {l : List APINode} {y : APINode} {rest : List APINode},
      findErase f key l = some (y, rest) → y ∈ l ∧ rest.Sublist l
  | [], y, rest, h => by simp [findErase] at h
  | x :: xs, y, rest, h => by
      by_cases hx : f x = key
      · simp [findErase, hx] at h
        exact ⟨by simp [h.1], by simp [← h.1, ← h.2]⟩
      · simp only [findErase, hx, if_false] at h
        cases hfe : findErase f key xs with
        | none => rw [hfe] at h; exact absurd h (by simp)
        | some p =>
            rw [hfe] at h
            simp at h
            obtain ⟨hy, hr⟩ := h
            have := findErase_mem_sub
              (show findErase f key xs = some (p.1, p.2) from by rw [hfe])
            exact ⟨by simp [← hy, this.1], by
              rw [← hr]
              exact List.Sublist.cons₂ x this.2⟩

theorem intersectionGo_mem {f : KeyFn} :
    ∀ {a mb : List APINode} {p : APINode × APINode},
      p ∈ intersectionGo f a mb → p.1 ∈ a ∧ p.2 ∈ mb
  | [], mb, p, h => by simp [intersectionGo] at h
  | x :: xs, mb, p, h => by
      simp only [intersectionGo] at h
      cases hfe : findErase f (f x) mb with
      | some q =>
          rw [hfe] at h
          rcases List.mem_cons.1 h with h1 | h1
          · subst h1
            exact ⟨List.mem_cons_self _ _,
              (findErase_mem_sub (by rw [hfe] : findErase f (f x) mb = some (q.1, q.2))).1⟩
          · have ih := intersectionGo_mem (a := xs) h1
            have hsub := (findErase_mem_sub
              (by rw [hfe] : findErase f (f x) mb = some (q.1, q.2))).2
            exact ⟨List.mem_cons_of_mem _ ih.1, hsub.mem ih.2⟩
      | none =>
          rw [hfe] at h
          have ih := intersectionGo_mem (a := xs) h
          exact ⟨List.mem_cons_of_mem _ ih.1, ih.2⟩

theorem intersection_mem {a b : List APINode} {f : KeyFn}
    {p : APINode × APINode} (h : p ∈ intersection a b f) : p.1 ∈ a ∧ p.2 ∈ b :=
  intersectionGo_mem h

/-- `diffNodes(a, b, tree1, tree2)` — the tree parameters are carried but
unused, as in the source.  When both nodes have children, the children are
partitioned by `byQualifiedName` into removed / added / common groups;
common pairs recurse; the per-node attribute diff is appended; a non-empty
accumulated result is wrapped into one `modified` record. -/
def diffNodes (a b : APINode) (t1 t2 : NormalizedTree) : List DRec :=
  if hasChildrenB a && hasChildrenB b then
    let removed_nodes := difference a.children b.children byQualifiedName
    let added_nodes := difference b.children a.children byQualifiedName
    let common_nodes := intersection a.children b.children byQualifiedName
    let childrenDiff :=
      removed_nodes.map (fun n => getJsonFromNode n tagRemoved) ++
      added_nodes.map (fun n => getJsonFromNode n tagAdded) ++
      (common_nodes.attach.map (fun p =>
        diffNodes p.1.1 p.1.2 t1 t2)).flatten ++
      a.diff b
    if childrenDiff.isEmpty then []
    else [DRec.node (some a.qualifiedName) (kindStr a.kind) none
            (some tagModified) childrenDiff]
  else a.diff b
termination_by sizeOf a + sizeOf b
decreasing_by
  have h := intersection_mem p.2
  have h1 := APINode.sizeOf_child_lt' h.1
  have h2 := APINode.sizeOf_child_lt' h.2
  omega

/-- `diffTrees(roots1, roots2, tree1, tree2, excludeNodes1, excludeNodes2)`:
base roots are skipped when excluded, reported removed when their qualified
name is absent from the head tree map, and recursed into otherwise; head
roots are skipped when excluded and reported added when absent from the
base tree map. -/
def diffTrees (roots1 roots2 : List APINode) (t1 t2 : NormalizedTree)
    (excludeNodes1 excludeNodes2 : List String) : List DRec :=
  (roots1.flatMap fun r1 =>
    if excludeNodes1.contains r1.qualifiedName then []
    else
      match treeLookup t2 r1.qualifiedName with
      | none => [getJsonFromNode r1 tagRemoved]
      | some r2 => diffNodes r1 r2 t1 t2) ++
  (roots2.flatMap fun r2 =>
    if excludeNodes2.contains r2.qualifiedName then []
    else
      match treeLookup t1 r2.qualifiedName with
      | none => [getJsonFromNode r2 tagAdded]
      | some _ => [])

/-! ## Change describer and report grouping: report_utils.cpp

The describer consumes the diff tree as JSON.  The JSON values it reads
are modelled by `DJ`: every field it accesses through `json::value` with
default `""` is a plain `String` (absent and empty are then
indistinguishable through that accessor, exactly as observed by the
source); `qualifiedName` and `nodeType` are `Option String` because the
source also reads them with non-empty defaults; the `inline` boolean is
`Option Bool` (`contains` + `is_boolean`); `children` is a list (the
engine only ever emits a non-empty children array). -/

inductive DJ where
  | mk (tag : String) (nodeType : Option String) (qualifiedName : Option String)
       (dataType : String) (children : List DJ)
       (storageQualifier functionCallingConvention : String)
       (inlineFlag : Option Bool)
deriving Repr

mutual

def DJ.decEq : (a b : DJ) → Decidable (a = b)
  | .mk t1 nt1 q1 d1 c1 s1 f1 i1, .mk t2 nt2 q2 d2 c2 s2 f2 i2 =>
      have hc : Decidable (c1 = c2) := DJ.decEqList c1 c2
      decidable_of_iff
        (t1 = t2 ∧ nt1 = nt2 ∧ q1 = q2 ∧ d1 = d2 ∧ c1 = c2 ∧ s1 = s2 ∧
          f1 = f2 ∧ i1 = i2) (by simp [DJ.mk.injEq])

def DJ.decEqList : (l1 l2 : List DJ) → Decidable (l1 = l2)
  | [], [] => isTrue rfl
  | [], _ :: _ => isFalse (by simp)
  | _ :: _, [] => isFalse (by simp)
  | x :: xs, y :: ys =>
      match DJ.decEq x y, DJ.decEqList xs ys with
      | isTrue h1, isTrue h2 => isTrue (by rw [h1, h2])
      | isFalse h1, _ => isFalse (by simp [h1])
      | _, isFalse h2 => isFalse (by simp [h2])

end

instance : DecidableEq DJ := DJ.decEq

def DJ.tag : DJ → String
  | .mk t _ _ _ _ _ _ _ => t

def DJ.nodeTypeOpt : DJ → Option String
  | .mk _ nt _ _ _ _ _ _ => nt

def DJ.qualifiedNameOpt : DJ → Option String
  | .mk _ _ q _ _ _ _ _ => q

def DJ.dataType : DJ → String
  | .mk _ _ _ d _ _ _ _ => d

def DJ.children : DJ → List DJ
  | .mk _ _ _ _ c _ _ _ => c

def DJ.storageQualifier : DJ → String
  | .mk _ _ _ _ _ s _ _ => s

def DJ.functionCallingConvention : DJ → String
  | .mk _ _ _ _ _ _ f _ => f

def DJ.inlineFlag : DJ → Option Bool
  | .mk _ _ _ _ _ _ _ i => i

/-- `value("nodeType", "")`. -/
def DJ.ntD (d : DJ) : String := d.nodeTypeOpt.getD ""

/-- `value("qualifiedName", "")`. -/
def DJ.qnD (d : DJ) : String := d.qualifiedNameOpt.getD ""

/-- `value("qualifiedName", "Unknown")`. -/
def DJ.qnUnknown (d : DJ) : String := d.qualifiedNameOpt.getD "Unknown"

theorem DJ.sizeOf_childD_lt {c d : DJ} (h : c ∈ d.children) :
    sizeOf c < sizeOf d := by
  cases d with
  | mk t nt q dt cs s f i =>
      have h1 : sizeOf c < sizeOf cs := List.sizeOf_lt_of_mem h
      simp only [DJ.mk.sizeOf_spec]
      simp only [DJ.children] at h1
      omega

/-- The single-quote character, used throughout the emitted descriptions. -/
def sq : String := String.singleton (Char.ofNat 39)

/-- Quote a fragment between single quotes. -/
def qd (s : String) : String := sq ++ s ++ sq

/-- The positions at which the two-character separator `::` occurs. -/
def sepPositions : List Char → Nat → List Nat
  | [], _ => []
  | [_], _ => []
  | c1 :: c2 :: rest, i =>
      (if c1 = ':' ∧ c2 = ':' then [i] else []) ++ sepPositions (c2 :: rest) (i + 1)

/-- `rfind("::")`: the last occurrence, if any. -/
def lastSepIdx (s : String) : Option Nat := (sepPositions s.toList 0).getLast?

/-- `qname_stem`: everything before the last `::`, or the whole string. -/
def qname_stem (qn : String) : String :=
  match lastSepIdx qn with
  | none => qn
  | some i => ⟨qn.toList.take i⟩

/-- The leaf after the last `::` (the repeated `rfind` + `substr(pos + 2)`
idiom), or the whole string when there is no separator. -/
def leafName (qn : String) : String :=
  match lastSepIdx qn with
  | none => qn
  | some i => ⟨qn.toList.drop (i + 2)⟩

/-! ### Change category and row adapter -/

/-- `to_change_category`: only a top-level addition is
`Functionality_changed`. -/
def to_change_category (rawChange : String) (isTopLevelAddition : Bool) : String :=
  if rawChange = "added" ∧ isTopLevelAddition then "Functionality_changed"
  else "Compatibility_changed"

/-- `struct AtomicChange`. -/
structure AtomicChange where
  headerfile : String := ""
  apiName : String := ""
  detail : String := ""
  rawChange : String := ""
  topLevel : Bool := false
  compatibility : String := ""
deriving Repr, DecidableEq

/-- The serialized change record rows (the JSON objects produced by
`to_record` and by the grouping). -/
structure ChangeRecord where
  headerfile : String := ""
  name : String := ""
  description : String := ""
  changetype : String := ""
  compatibility : String := ""
deriving Repr, DecidableEq

/-- `to_record`: the compatibility verdict is derived from the change
category alone. -/
def to_record (c : AtomicChange) : ChangeRecord :=
  let category := to_change_category c.rawChange c.topLevel
  let compat := if category = "Compatibility_changed" then "backward_incompatible"
                else "backward_compatible"
  { headerfile := c.headerfile, name := c.apiName, description := c.detail
    changetype := category, compatibility := compat }

/-! ### Function-diff helpers -/

/-- `looks_like_rename`: both sides `Parameter` nodes with identical
non-empty dataType. -/
def looks_like_rename (removedParam addedParam : DJ) : Bool :=
  if removedParam.ntD ≠ "Parameter" ∨ addedParam.ntD ≠ "Parameter" then false
  else
    let dtR := removedParam.dataType
    let dtA := addedParam.dataType
    dtR ≠ "" ∧ dtR = dtA

/-- `add_attr_change`: one attribute-change row, skipped when unchanged. -/
def add_attr_change (headerFile funcName attr oldV newV : String) :
    List AtomicChange :=
  if oldV = newV then []
  else
    let detail :=
      if oldV ≠ "" ∧ newV = "" then
        "Function attribute " ++ attr ++ " removed " ++ qd oldV
      else if oldV = "" ∧ newV ≠ "" then
        "Function attribute " ++ attr ++ " added " ++ qd newV
      else
        "Function attribute " ++ attr ++ " changed from " ++ qd oldV ++
          " to " ++ qd newV
    [{ headerfile := headerFile, apiName := funcName, detail := detail
       rawChange := "attr_changed", topLevel := false }]

/-- `inline_to_str`. -/
def inline_to_str (j : DJ) : String :=
  match j.inlineFlag with
  | some b => boolStr b
  | none => ""

/-- The empty JSON object a null snapshot is replaced by. -/
def djEmpty : DJ := .mk "" none none "" [] "" "" none

/-- `diff_function_attributes`. -/
def diff_function_attributes (headerFile funcName : String)
    (removedFn addedFn : Option DJ) : List AtomicChange :=
  let oldJ := removedFn.getD djEmpty
  let newJ := addedFn.getD djEmpty
  add_attr_change headerFile funcName "storageQualifier"
      oldJ.storageQualifier newJ.storageQualifier ++
  add_attr_change headerFile funcName "functionCallingConvention"
      oldJ.functionCallingConvention newJ.functionCallingConvention ++
  add_attr_change headerFile funcName "inline"
      (inline_to_str oldJ) (inline_to_str newJ)

/-- The last child of a node carrying a given tag (the loop assignment
overwrites, so the last one wins). -/
def lastWithTag (t : String) (l : List DJ) : Option DJ :=
  l.foldl (fun acc ch => if ch.tag = t then some ch else acc) none

/-- `diff_nested_mod_node`: a modified Parameter / ReturnType node with
removed and added snapshot children yields one type-change row. -/
def diff_nested_mod_node (headerFile apiName : String) (modNode : DJ) :
    List AtomicChange :=
  let kids := modNode.children
  let removed := lastWithTag "removed" kids
  let added := lastWithTag "added" kids
  match removed, added with
  | some r, some a =>
      let subType := r.nodeTypeOpt.getD modNode.ntD
      let nameLeaf := leafName r.qnD
      let dtR := r.dataType
      let dtA := a.dataType
      let detail :=
        if subType = "ReturnType" then
          "Return type changed from " ++ qd dtR ++ " to " ++ qd dtA
        else
          subType ++ " " ++ qd nameLeaf ++ " type changed from " ++ qd dtR ++
            " to " ++ qd dtA
      [{ headerfile := headerFile, apiName := apiName, detail := detail
         rawChange := "modified", topLevel := false }]
  | _, _ => []

/-! ### Direct parameter add / remove with rename inference

`std::multimap<std::string, const json*>` keyed by dataType is modelled as
an association list kept sorted by key with equal keys in insertion order
(`emplace` inserts at the upper bound); the `const json*` identities are
the positions of the parameters in their input vector.  The
`std::set<const json*>` matched sets are lists of those positions. -/

def insertMM (k : String) (v : Nat × DJ) :
    List (String × Nat × DJ) → List (String × Nat × DJ)
  | [] => [(k, v)]
  | (k', v') :: rest =>
      if k < k' then (k, v) :: (k', v') :: rest
      else (k', v') :: insertMM k v rest

def buildMM (params : List DJ) : List (String × Nat × DJ) :=
  (params.enum).foldl (fun acc p => insertMM p.2.dataType (p.1, p.2) acc) []

/-- The `equal_range` scan: the first added-side entry with the given key
that is not yet matched and passes `looks_like_rename`. -/
def findRename (r : DJ) (dt : String) (matchedA : List Nat) :
    List (String × Nat × DJ) → Option (Nat × DJ)
  | [] => none
  | (k, i, a) :: rest =>
      if k = dt ∧ ¬ matchedA.contains i ∧ looks_like_rename r a then some (i, a)
      else findRename r dt matchedA rest

def renameDetail (rn an dt : String) : String :=
  "Parameter renamed from " ++ qd rn ++ " to " ++ qd an ++
    " (type " ++ qd dt ++ ")"

def mkRenameRow (hdr api : String) (r a : DJ) (dt : String) : AtomicChange :=
  { headerfile := hdr, apiName := api
    detail := renameDetail (leafName r.qnD) (leafName a.qnD) dt
    rawChange := "modified", topLevel := false }

def mkParamRemovedRow (hdr api : String) (r : DJ) (dt : String) : AtomicChange :=
  { headerfile := hdr, apiName := api
    detail := "Parameter " ++ qd (leafName r.qnD) ++ " removed (type " ++
      qd dt ++ ")"
    rawChange := "removed", topLevel := false }

def mkParamAddedRow (hdr api : String) (a : DJ) (dt : String) : AtomicChange :=
  { headerfile := hdr, apiName := api
    detail := "Parameter " ++ qd (leafName a.qnD) ++ " added (type " ++
      qd dt ++ ")"
    rawChange := "added", topLevel := false }

/-- The first (rename pairing) loop of `diff_direct_param_nodes`: walks the
removed multimap in order, matching each entry against the added multimap;
returns the rename rows, the matched removed identities and the matched
added identities. -/
def renameLoop (hdr api : String) (addedBT : List (String × Nat × DJ)) :
    List (String × Nat × DJ) → List Nat →
      List AtomicChange × List Nat × List Nat
  | [], matchedA => ([], [], matchedA)
  | (dt, ri, r) :: rest, matchedA =>
      match findRename r dt matchedA addedBT with
      | some (ai, a) =>
          let t := renameLoop hdr api addedBT rest (ai :: matchedA)
          (mkRenameRow hdr api r a dt :: t.1, ri :: t.2.1, t.2.2)
      | none =>
          let t := renameLoop hdr api addedBT rest matchedA
          (t.1, t.2.1, t.2.2)

/-- `diff_direct_param_nodes`: rename pairings first, then the unmatched
removed rows (in removed-multimap order), then the unmatched added rows. -/
def diff_direct_param_nodes (hdr api : String)
    (removedParams addedParams : List DJ) : List AtomicChange :=
  let removedBT := buildMM removedParams
  let addedBT := buildMM addedParams
  let t := renameLoop hdr api addedBT removedBT []
  t.1 ++
  (removedBT.filter (fun e => ¬ t.2.1.contains e.2.1)).map
    (fun e => mkParamRemovedRow hdr api e.2.2 e.1) ++
  (addedBT.filter (fun e => ¬ t.2.2.contains e.2.1)).map
    (fun e => mkParamAddedRow hdr api e.2.2 e.1)

/-- The rename-loop state (rows, matched removed identities, matched added
identities) that `diff_direct_param_nodes` computes on its two multimaps. -/
def paramRenameState (hdr api : String) (removedParams addedParams : List DJ) :
    List AtomicChange × List Nat × List Nat :=
  renameLoop hdr api (buildMM addedParams) (buildMM removedParams) []

/-- A concrete removed Parameter snapshot. -/
def c7pr : DJ := .mk "removed" (some "Parameter") (some "f::a") "int" [] "" "" none

/-- A concrete added Parameter snapshot. -/
def c7pa : DJ := .mk "added" (some "Parameter") (some "f::b") "int" [] "" "" none

/-! ### Non-function recursive describer

`std::map<std::pair<std::string, std::string>, json>` is modelled as an
association list kept sorted by the lexicographic pair order, assignment
through `operator[]` overwriting in place. -/

abbrev DescKey := String × String

def descKeyLt (a b : DescKey) : Bool :=
  decide (a.1 < b.1 ∨ (a.1 = b.1 ∧ a.2 < b.2))

def kvInsert (k : DescKey) (v : DJ) :
    List (DescKey × DJ) → List (DescKey × DJ)
  | [] => [(k, v)]
  | (k', v') :: rest =>
      if descKeyLt k k' then (k, v) :: (k', v') :: rest
      else if k = k' then (k, v) :: rest
      else (k', v') :: kvInsert k v rest

def mapFind (k : DescKey) : List (DescKey × DJ) → Option DJ
  | [] => none
  | (k', v') :: rest => if k' = k then some v' else mapFind k rest

/-- The children of a node holding a given tag, as a `(qn, nodeType)`-keyed
ordered map (last assignment wins). -/
def buildTagMap (t : String) (kids : List DJ) : List (DescKey × DJ) :=
  kids.foldl (fun m gk => if gk.tag = t then kvInsert (gk.qnD, gk.ntD) gk m else m)
    []

def addedLine (nt qn dt : String) : String :=
  if dt ≠ "" then nt ++ " added: " ++ qd qn ++ " with type " ++ qd dt
  else nt ++ " added: " ++ qd qn

def removedLine (nt qn dt : String) : String :=
  if dt ≠ "" then nt ++ " removed: " ++ qd qn ++ " with type " ++ qd dt
  else nt ++ " removed: " ++ qd qn

def presentLine (nt qn dt : String) : String :=
  if dt ≠ "" then nt ++ " present: " ++ qd qn ++ " (type " ++ qd dt ++ ")"
  else nt ++ " present: " ++ qd qn

def typeChangedLine (nt dqn dtR dtA : String) : String :=
  nt ++ " " ++ qd dqn ++ " type changed from " ++ qd dtR ++ " to " ++ qd dtA

/-- The defensive grandchild pairing inside `emit_added_removed_children`
for a `modified` child: removed and added grandchildren paired by exact
`(qn, nodeType)` key. -/
def emitModGrandkids (ch : DJ) : List String :=
  let gkids := ch.children
  if gkids.isEmpty then []
  else
    let rem := buildTagMap "removed" gkids
    let add := buildTagMap "added" gkids
    (rem.flatMap fun kv =>
      let r := kv.2
      let subNodeType := r.ntD
      let pname := r.qnD
      match mapFind kv.1 add with
      | some a =>
          let dtR := r.dataType
          let dtA := a.dataType
          let displayQN := if subNodeType = "ReturnType" then qname_stem pname
                           else pname
          if dtR ≠ "" ∧ dtA ≠ "" then [typeChangedLine subNodeType displayQN dtR dtA]
          else [subNodeType ++ " modified: " ++ qd displayQN]
      | none => [removedLine subNodeType pname r.dataType]) ++
    (add.flatMap fun kv =>
      if (mapFind kv.1 rem).isSome then []
      else [addedLine kv.2.ntD kv.2.qnD kv.2.dataType])

/-- `emit_added_removed_children`: enumerates each child under its
effective tag (its own tag, or the inherited one) and recurses into
children that themselves carry children. -/
def emit_added_removed_children (node : DJ) (parentTag : String) : List String :=
  node.children.attach.flatMap fun c =>
    let ch := c.1
    let chType := ch.ntD
    let chQN := ch.qnD
    let chDT := ch.dataType
    let chTag := ch.tag
    let effTag := if chTag = "" then parentTag else chTag
    let headLines :=
      if effTag = "added" then [addedLine chType chQN chDT]
      else if effTag = "removed" then [removedLine chType chQN chDT]
      else if effTag = "modified" then emitModGrandkids ch
      else [presentLine chType chQN chDT]
    headLines ++
      (if ch.children.isEmpty then []
       else emit_added_removed_children ch effTag)
termination_by sizeOf node
decreasing_by
  exact DJ.sizeOf_childD_lt c.2

/-- The first addedItems entry (in map order) that is a `Parameter`, is not
yet consumed, and has the requested stripped-qualifier stem. -/
def findStemMatch (stemR : String) (consumed : List DescKey) :
    List (DescKey × DJ) → Option (DescKey × DJ)
  | [] => none
  | (k, a) :: rest =>
      if a.ntD = "Parameter" ∧ ¬ consumed.contains k ∧ qname_stem a.qnD = stemR
      then some (k, a)
      else findStemMatch stemR consumed rest

/-- The removed-items pass of the `modified` case of
`describe_non_function_recursive`: exact pairing, relaxed parameter-stem
pairing, or a plain removal line; returns the lines and the consumed
added keys. -/
def describeRemLoop (addedItems : List (DescKey × DJ)) :
    List (DescKey × DJ) → List DescKey → List String × List DescKey
  | [], consumed => ([], consumed)
  | (key, removed) :: rest, consumed =>
      let subNodeType := removed.ntD
      let paramQN := removed.qnD
      match mapFind key addedItems with
      | some added =>
          let dtR := removed.dataType
          let dtA := added.dataType
          let displayQN := if subNodeType = "ReturnType" then qname_stem paramQN
                           else paramQN
          let line :=
            if dtR ≠ "" ∧ dtA ≠ "" then [typeChangedLine subNodeType displayQN dtR dtA]
            else [subNodeType ++ " modified: " ++ qd displayQN]
          let t := describeRemLoop addedItems rest (key :: consumed)
          (line ++ t.1, t.2)
      | none =>
          if subNodeType = "Parameter" then
            let stemR := qname_stem paramQN
            let dtR := removed.dataType
            match findStemMatch stemR consumed addedItems with
            | some (bestKey, bestAdded) =>
                let dtA := bestAdded.dataType
                let line :=
                  if dtR ≠ "" ∧ dtA ≠ "" then
                    ["Parameter modified: " ++ qd stemR ++ " type changed from " ++
                      qd dtR ++ " to " ++ qd dtA]
                  else ["Parameter modified: " ++ qd stemR]
                let t := describeRemLoop addedItems rest (bestKey :: consumed)
                (line ++ t.1, t.2)
            | none =>
                let t := describeRemLoop addedItems rest consumed
                ([removedLine subNodeType paramQN removed.dataType] ++ t.1, t.2)
          else
            let t := describeRemLoop addedItems rest consumed
            ([removedLine subNodeType paramQN removed.dataType] ++ t.1, t.2)

/-- `describe_non_function_recursive`. -/
def describe_non_function_recursive (node : DJ) : List String :=
  let tag := node.tag
  if tag = "added" then
    addedLine node.ntD node.qnD node.dataType ::
      emit_added_removed_children node "added"
  else if tag = "removed" then
    removedLine node.ntD node.qnD node.dataType ::
      emit_added_removed_children node "removed"
  else if tag ≠ "modified" then []
  else
    let childLines := node.children.attach.flatMap fun c =>
      let ch := c.1
      if ch.tag = "modified" then describe_non_function_recursive ch
      else if ch.tag = "" ∧ ¬ ch.children.isEmpty then
        describe_non_function_recursive ch
      else []
    let removedItems := buildTagMap "removed" node.children
    let addedItems := buildTagMap "added" node.children
    let t := describeRemLoop addedItems removedItems []
    let addLines := addedItems.flatMap fun kv =>
      if (mapFind kv.1 removedItems).isSome then []
      else if t.2.contains kv.1 then []
      else [addedLine kv.2.ntD kv.2.qnD kv.2.dataType]
    childLines ++ t.1 ++ addLines
termination_by sizeOf node
decreasing_by
  · exact DJ.sizeOf_childD_lt c.2
  · exact DJ.sizeOf_childD_lt c.2

/-- `generate_non_function_description`. -/
def generate_non_function_description (item : DJ) : String :=
  let lines := describe_non_function_recursive item
  if lines.isEmpty then item.ntD ++ " " ++ item.tag ++ ": " ++ qd item.qnD
  else String.intercalate "\n" lines

/-! ### preprocess_api_changes -/

/-- The accumulator of the child-classification loop of a modified
Function entry. -/
structure FnScan where
  removedFn : Option DJ := none
  addedFn : Option DJ := none
  rows : List AtomicChange := []
  directAdded : List DJ := []
  directRemoved : List DJ := []
deriving Repr

def scanFnChildren (hdr api : String) (children : List DJ) : FnScan :=
  children.foldl
    (fun st ch =>
      let chType := ch.ntD
      let chTag := ch.tag
      if chType = "Function" ∧ (chTag = "removed" ∨ chTag = "added") then
        if chTag = "removed" then { st with removedFn := some ch }
        else { st with addedFn := some ch }
      else if (chType = "Parameter" ∨ chType = "ReturnType") ∧ chTag = "modified"
      then { st with rows := st.rows ++ diff_nested_mod_node hdr api ch }
      else if chType = "Parameter" ∧ (chTag = "added" ∨ chTag = "removed") then
        if chTag = "added" then { st with directAdded := st.directAdded ++ [ch] }
        else { st with directRemoved := st.directRemoved ++ [ch] }
      else st)
    {}

/-- The body of the `preprocess_api_changes` loop for one top-level diff
entry. -/
def processEntry (hdr : String) (change : DJ) : List ChangeRecord :=
  let nodeType := change.ntD
  let tag := change.tag
  let apiName := change.qnUnknown
  if nodeType ≠ "Function" then
    [to_record { headerfile := hdr, apiName := apiName
                 detail := generate_non_function_description change
                 rawChange := tag, topLevel := tag = "added" }]
  else if tag = "added" then
    [to_record { headerfile := hdr, apiName := apiName
                 detail := "Function added", rawChange := "added"
                 topLevel := true }]
  else if tag = "removed" then
    [to_record { headerfile := hdr, apiName := apiName
                 detail := "Function removed", rawChange := "removed"
                 topLevel := false }]
  else
    let st := scanFnChildren hdr apiName change.children
    let rows := st.rows ++
      (if st.removedFn.isSome ∨ st.addedFn.isSome then
        diff_function_attributes hdr apiName st.removedFn st.addedFn
       else []) ++
      (if ¬ st.directAdded.isEmpty ∨ ¬ st.directRemoved.isEmpty then
        diff_direct_param_nodes hdr apiName st.directRemoved st.directAdded
       else [])
    let rows :=
      if rows.isEmpty then
        [{ headerfile := hdr, apiName := apiName, detail := "Function modified"
           rawChange := "modified", topLevel := false }]
      else rows
    rows.map fun r => to_record { r with topLevel := false }

/-- `preprocess_api_changes`. -/
def preprocess_api_changes (api_differences : List DJ)
    (header_file_path : String) : List ChangeRecord :=
  api_differences.foldl (fun acc change => acc ++ processEntry header_file_path change)
    []

/-! ### Grouping by (headerfile, name) -/

/-- `struct Agg` of `group_records_by_function`. -/
structure Agg where
  headerfile : String := ""
  name : String := ""
  descriptions : List String := []
  anyCompatibilityChanged : Bool := false
  anyFunctionalityChanged : Bool := false
deriving Repr, DecidableEq

/-- One row folded into its bucket aggregate. -/
def aggUpd (a : Agg) (r : ChangeRecord) : Agg :=
  let a := if a.headerfile = "" then
             { a with headerfile := r.headerfile, name := r.name }
           else a
  let a := if r.description ≠ "" then
             { a with descriptions := a.descriptions ++ [r.description] }
           else a
  if r.changetype = "Compatibility_changed" then
    { a with anyCompatibilityChanged := true }
  else if r.changetype = "Functionality_changed" then
    { a with anyFunctionalityChanged := true }
  else a

/-- `buckets[k]` access plus the row update, on the sorted bucket list. -/
def bucketsIns (r : ChangeRecord) :
    List (DescKey × Agg) → List (DescKey × Agg)
  | [] => [((r.headerfile, r.name), aggUpd {} r)]
  | (k', a') :: rest =>
      if descKeyLt (r.headerfile, r.name) k' then
        ((r.headerfile, r.name), aggUpd {} r) :: (k', a') :: rest
      else if (r.headerfile, r.name) = k' then (k', aggUpd a' r) :: rest
      else (k', a') :: bucketsIns r rest

/-- The rendering of one aggregated bucket into a grouped record. -/
def renderAgg (a : Agg) : ChangeRecord :=
  let compat := a.anyCompatibilityChanged
  { headerfile := a.headerfile, name := a.name
    description := String.intercalate "\n" a.descriptions
    changetype := if compat then "Compatibility Changed"
                  else "Functionality Added"
    compatibility := if compat then "backward_incompatible"
                     else "backward_compatible" }

/-- `group_records_by_function`: fold the rows into the ordered bucket map,
then render each bucket. -/
def group_records_by_function (rows : List ChangeRecord) : List ChangeRecord :=
  (rows.foldl (fun b r => bucketsIns r b) []).map fun kv => renderAgg kv.2

/-! ## Observers on diff records, and the claim-side key extraction -/

theorem DRec.sizeOf_childR_lt {c : DRec} {q : Option String} {nt : String}
    {dt tg : Option String} {ch : List DRec}
    (h : c ∈ ch) : sizeOf c < sizeOf (DRec.node q nt dt tg ch) := by
  have h1 : sizeOf c < sizeOf ch := List.sizeOf_lt_of_mem h
  simp only [DRec.node.sizeOf_spec]
  omega

def DRec.tagOf : DRec → Option String
  | .node _ _ _ t _ => t
  | .attr _ _ _ => none

def DRec.topQN : DRec → Option String
  | .node q _ _ _ _ => q
  | .attr _ _ _ => none

def DRec.isAttrRec : DRec → Bool
  | .node _ _ _ _ _ => false
  | .attr _ _ _ => true

mutual

/-- Does a record, at any depth, carry the given tag? -/
def containsTag (tg : String) : DRec → Bool
  | .node _ _ _ t ch => decide (t = some tg) || containsTagList tg ch
  | .attr _ _ _ => false

def containsTagList (tg : String) : List DRec → Bool
  | [] => false
  | r :: rs => containsTag tg r || containsTagList tg rs

end

mutual

/-- Does a record, at any depth, have the given qualified name while
carrying tag added, removed or modified? -/
def hasTaggedQN (qn : String) : DRec → Bool
  | .node q _ _ t ch =>
      (decide (q = some qn) &&
        (decide (t = some tagAdded) || decide (t = some tagRemoved) ||
          decide (t = some tagModified))) || hasTaggedQNList qn ch
  | .attr _ _ _ => false

def hasTaggedQNList (qn : String) : List DRec → Bool
  | [] => false
  | r :: rs => hasTaggedQN qn r || hasTaggedQNList qn rs

end

mutual

/-- A record that, at every depth, is neither tagged added nor removed. -/
def drecNoAR : DRec → Bool
  | .node _ _ _ t ch =>
      decide (t ≠ some tagAdded) && decide (t ≠ some tagRemoved) &&
        noAddedRemoved ch
  | .attr _ _ _ => true

def noAddedRemoved : List DRec → Bool
  | [] => true
  | r :: rs => drecNoAR r && noAddedRemoved rs

end

/-- The per-node matching key the claim describes: `getKeyExtractor`
applied to each child selects `dataType` for `Function` children and
`qualifiedName` otherwise. -/
def specKeyOf : KeyFn := fun n => getKeyExtractor n n

/-- Follows the claim's words, for comparison with `diffNodes`: the
partition of the children into removed / added / common groups keyed by
the key extractor instead of `byQualifiedName`. -/
def diffNodesClaim (a b : APINode) (t1 t2 : NormalizedTree) : List DRec :=
  if hasChildrenB a && hasChildrenB b then
    let removed_nodes := difference a.children b.children specKeyOf
    let added_nodes := difference b.children a.children specKeyOf
    let common_nodes := intersection a.children b.children specKeyOf
    let childrenDiff :=
      removed_nodes.map (fun n => getJsonFromNode n tagRemoved) ++
      added_nodes.map (fun n => getJsonFromNode n tagAdded) ++
      (common_nodes.attach.map (fun p =>
        diffNodesClaim p.1.1 p.1.2 t1 t2)).flatten ++
      a.diff b
    if childrenDiff.isEmpty then []
    else [DRec.node (some a.qualifiedName) (kindStr a.kind) none
            (some tagModified) childrenDiff]
  else a.diff b
termination_by sizeOf a + sizeOf b
decreasing_by
  have h := intersection_mem p.2
  have h1 := APINode.sizeOf_child_lt' h.1
  have h2 := APINode.sizeOf_child_lt' h.2
  omega

/-! ## Theorems -/

/-! ### Support lemmas for the engine theorems -/

theorem attach_map_fst {α : Type _} {β : Type _} (l : List α) (g : α → β) :
    (l.attach.map (fun p => g p.1)) = l.map g := by
  simp

theorem attach_all_fst {α : Type _} (l : List α) (g : α → Bool) :
    (l.attach.all (fun p => g p.1)) = l.all g := by
  rw [Bool.eq_iff_iff]
  simp [List.all_eq_true]

theorem attach_any_fst {α : Type _} (l : List α) (g : α → Bool) :
    (l.attach.any (fun p => g p.1)) = l.any g := by
  rw [Bool.eq_iff_iff]
  simp [List.any_eq_true]

theorem attrEntry_all_attr (f o n : String) :
    (attrEntry f o n).all DRec.isAttrRec = true := by
  unfold attrEntry
  split <;> simp [DRec.isAttrRec]

theorem diff_all_attr (a b : APINode) :
    (APINode.diff a b).all DRec.isAttrRec = true := by
  unfold APINode.diff
  split <;> simp [List.all_append, attrEntry_all_attr]

theorem isAttr_topQN {r : DRec} (h : r.isAttrRec = true) : r.topQN = none := by
  cases r with
  | node q nt dt t ch => simp [DRec.isAttrRec] at h
  | attr f o n => rfl

theorem isAttr_tagOf {r : DRec} (h : r.isAttrRec = true) : r.tagOf = none := by
  cases r with
  | node q nt dt t ch => simp [DRec.isAttrRec] at h
  | attr f o n => rfl

theorem isAttr_noAR {r : DRec} (h : r.isAttrRec = true) : drecNoAR r = true := by
  cases r with
  | node q nt dt t ch => simp [DRec.isAttrRec] at h
  | attr f o n => rfl

theorem noAddedRemoved_append (l1 l2 : List DRec) :
    noAddedRemoved (l1 ++ l2) = (noAddedRemoved l1 && noAddedRemoved l2) := by
  induction l1 with
  | nil => simp [noAddedRemoved]
  | cons r rs ih => simp [noAddedRemoved, ih, Bool.and_assoc]

theorem noAddedRemoved_of_all_attr {l : List DRec}
    (h : l.all DRec.isAttrRec = true) : noAddedRemoved l = true := by
  induction l with
  | nil => rfl
  | cons r rs ih =>
      simp only [List.all_cons, Bool.and_eq_true] at h
      simp [noAddedRemoved, isAttr_noAR h.1, ih h.2]

theorem toJsonRec_eq (a : APIAttrs) (cs : List APINode) :
    toJsonRec (APINode.mk a cs) =
      DRec.node (if a.qualifiedName = "" then none else some a.qualifiedName)
        (kindStr a.kind) (if a.dataType = "" then none else some a.dataType)
        none (cs.attach.map fun c => toJsonRec c.1) := by
  rw [toJsonRec]

theorem getJsonFromNode_eq (a : APIAttrs) (cs : List APINode) (tg : String) :
    getJsonFromNode (APINode.mk a cs) tg =
      DRec.node (if a.qualifiedName = "" then none else some a.qualifiedName)
        (kindStr a.kind) (if a.dataType = "" then none else some a.dataType)
        (some tg) (cs.attach.map fun c => toJsonRec c.1) := by
  rw [getJsonFromNode, toJsonRec_eq]

theorem getJsonFromNode_topQN (n : APINode) (tg : String) :
    (getJsonFromNode n tg).topQN =
      if n.qualifiedName = "" then none else some n.qualifiedName := by
  cases n with
  | mk a cs =>
      rw [getJsonFromNode_eq]
      simp [DRec.topQN, APINode.qualifiedName, APINode.attrs]

theorem all_mem_of_all_eq_true {l : List DRec} {p : DRec → Bool}
    (h : l.all p = true) : ∀ r ∈ l, p r = true := by
  intro r hr
  exact List.all_eq_true.mp h r hr

/-- The accumulated children diff of `diffNodes` with the iteration over
the `attach` view written as a plain map. -/
def childrenDiffOf (a b : APINode) (t1 t2 : NormalizedTree) : List DRec :=
  (difference a.children b.children byQualifiedName).map
      (fun n => getJsonFromNode n tagRemoved) ++
  (difference b.children a.children byQualifiedName).map
      (fun n => getJsonFromNode n tagAdded) ++
  ((intersection a.children b.children byQualifiedName).map
      (fun p => diffNodes p.1 p.2 t1 t2)).flatten ++
  a.diff b

/-- The unfolding equation of `diffNodes`. -/
theorem diffNodes_eq (a b : APINode) (t1 t2 : NormalizedTree) :
    diffNodes a b t1 t2 =
      if hasChildrenB a && hasChildrenB b then
        if (childrenDiffOf a b t1 t2).isEmpty then []
        else [DRec.node (some a.qualifiedName) (kindStr a.kind) none
                (some tagModified) (childrenDiffOf a b t1 t2)]
      else a.diff b := by
  have hrw : ∀ l : List (APINode × APINode),
      (l.attach.map (fun p => diffNodes p.1.1 p.1.2 t1 t2)) =
        l.map (fun p => diffNodes p.1 p.2 t1 t2) :=
    fun l => attach_map_fst l (fun q => diffNodes q.1 q.2 t1 t2)
  rw [diffNodes]
  unfold childrenDiffOf
  simp only [hrw]

/-- The claim-side children diff. -/
def childrenDiffClaimOf (a b : APINode) (t1 t2 : NormalizedTree) : List DRec :=
  (difference a.children b.children specKeyOf).map
      (fun n => getJsonFromNode n tagRemoved) ++
  (difference b.children a.children specKeyOf).map
      (fun n => getJsonFromNode n tagAdded) ++
  ((intersection a.children b.children specKeyOf).map
      (fun p => diffNodesClaim p.1 p.2 t1 t2)).flatten ++
  a.diff b

/-- The unfolding equation of `diffNodesClaim`. -/
theorem diffNodesClaim_eq (a b : APINode) (t1 t2 : NormalizedTree) :
    diffNodesClaim a b t1 t2 =
      if hasChildrenB a && hasChildrenB b then
        if (childrenDiffClaimOf a b t1 t2).isEmpty then []
        else [DRec.node (some a.qualifiedName) (kindStr a.kind) none
                (some tagModified) (childrenDiffClaimOf a b t1 t2)]
      else a.diff b := by
  have hrw : ∀ l : List (APINode × APINode),
      (l.attach.map (fun p => diffNodesClaim p.1.1 p.1.2 t1 t2)) =
        l.map (fun p => diffNodesClaim p.1 p.2 t1 t2) :=
    fun l => attach_map_fst l (fun q => diffNodesClaim q.1 q.2 t1 t2)
  rw [diffNodesClaim]
  unfold childrenDiffClaimOf
  simp only [hrw]

/-- Every record returned by `diffNodes a b` is either the single
`modified` wrapper carrying the qualified name of `a`, or an attribute
record with no qualified name. -/
theorem diffNodes_top_shape (a b : APINode) (t1 t2 : NormalizedTree) :
    ∀ r ∈ diffNodes a b t1 t2,
      r.topQN = some a.qualifiedName ∨ r.topQN = none := by
  intro r hr
  rw [diffNodes_eq] at hr
  by_cases hc : (hasChildrenB a && hasChildrenB b) = true
  · rw [if_pos hc] at hr
    split at hr
    · exact absurd hr (by simp)
    · rcases List.mem_singleton.mp hr with rfl
      left
      rfl
  · rw [if_neg hc] at hr
    right
    exact isAttr_topQN (all_mem_of_all_eq_true (diff_all_attr a b) r hr)

/-! ### C9: qualified-name builder laws -/

/-- C9: `get` of an empty builder is the empty string; a first `push` onto
an empty builder yields exactly that name with no separator; and
`push(X); pop()` restores the builder (buffer and offset stack)
byte-for-byte. -/
theorem qnb_empty_push_pop_laws :
    QualifiedNameBuilder.emptyB.get = [] ∧
    (∀ name : List Char, (QualifiedNameBuilder.emptyB.push name).get = name) ∧
    (∀ (b : QualifiedNameBuilder) (name : List Char), (b.push name).pop = b) := by
  refine ⟨rfl, ?_, ?_⟩
  · intro name
    simp [QualifiedNameBuilder.push, QualifiedNameBuilder.get,
      QualifiedNameBuilder.emptyB]
  · intro b name
    cases b with
    | mk buf offs =>
        simp only [QualifiedNameBuilder.push, QualifiedNameBuilder.pop]
        by_cases hb : buf.isEmpty
        · have hbe : buf = [] := List.isEmpty_iff.mp hb
          subst hbe
          simp
        · rw [if_neg hb]
          congr 1
          rw [List.append_assoc]
          exact List.take_left buf (qnbSep ++ name)

/-! ### C10: addNode never overwrites -/

/-- C10: if the key is already bound, `addNode` returns `false` and leaves
the tree map unchanged (the previously stored node stays bound); if the
key is absent, it inserts the node and returns `true`. -/
theorem addNode_no_overwrite :
    ∀ (t : NormalizedTree) (key : String) (node : APINode),
      (∀ n0, treeLookup t key = some n0 →
        addNode t key node = (false, t) ∧
        treeLookup (addNode t key node).2 key = some n0) ∧
      (treeLookup t key = none →
        (addNode t key node).1 = true ∧
        treeLookup (addNode t key node).2 key = some node) := by
  intro t key node
  constructor
  · intro n0 h
    have hs : (treeLookup t key).isSome := by rw [h]; rfl
    constructor
    · simp [addNode, hs]
    · simp [addNode, hs, h]
  · intro h
    have hs : ¬ (treeLookup t key).isSome := by rw [h]; simp
    constructor
    · simp [addNode, hs]
    · simp [addNode, hs, treeLookup]

/-- Witness for C10 at concrete inputs: a bound key is rejected and kept;
a fresh key is inserted. -/
theorem addNode_no_overwrite_witness :
    (addNode [("k", APINode.mk {} [])] "k"
        (APINode.mk { qualifiedName := "other" } []) =
      (false, [("k", APINode.mk {} [])])) ∧
    ((addNode [] "k" (APINode.mk {} [])).1 = true) :=
  ⟨((addNode_no_overwrite [("k", APINode.mk {} [])] "k"
      (APINode.mk { qualifiedName := "other" } [])).1 (APINode.mk {} []) rfl).1,
   ((addNode_no_overwrite [] "k" (APINode.mk {} [])).2 rfl).1⟩

/-! ### C8: type unwrapper -/

theorem stringFoldl_acc (l : List String) :
    ∀ acc : String, l.foldl (· ++ ·) acc = acc ++ l.foldl (· ++ ·) "" := by
  induction l with
  | nil => intro acc; simp
  | cons x xs ih =>
      intro acc
      simp only [List.foldl_cons]
      rw [ih (acc ++ x), ih ("" ++ x), ← String.append_assoc]
      simp

theorem stringJoin_append (l1 l2 : List String) :
    String.join (l1 ++ l2) = String.join l1 ++ String.join l2 := by
  simp only [String.join, List.foldl_append]
  rw [stringFoldl_acc l2 (List.foldl (· ++ ·) "" l1)]

theorem unwrapLoop_nullLoc : unwrapLoop TypeLoc.nullLoc = ([], TypeLoc.nullLoc) := by
  rw [unwrapLoop]
  simp [peelQuals, peelSwitch]

theorem unwrapLoop_terminal (s : String) :
    unwrapLoop (TypeLoc.terminal s) = ([], TypeLoc.terminal s) := by
  rw [unwrapLoop]
  simp [peelQuals, peelSwitch]

theorem unwrapLoop_pointer (t : TypeLoc) :
    unwrapLoop (TypeLoc.pointer t) =
      ("*" :: (unwrapLoop t).1, (unwrapLoop t).2) := by
  rw [unwrapLoop]
  simp [peelQuals, peelSwitch]

theorem unwrapLoop_lvalueRef (t : TypeLoc) :
    unwrapLoop (TypeLoc.lvalueRef t) =
      ("&" :: (unwrapLoop t).1, (unwrapLoop t).2) := by
  rw [unwrapLoop]
  simp [peelQuals, peelSwitch]

theorem unwrapLoop_rvalueRef (t : TypeLoc) :
    unwrapLoop (TypeLoc.rvalueRef t) =
      ("&&" :: (unwrapLoop t).1, (unwrapLoop t).2) := by
  rw [unwrapLoop]
  simp [peelQuals, peelSwitch]

theorem unwrapLoop_paren (t : TypeLoc) :
    unwrapLoop (TypeLoc.paren t) = unwrapLoop t := by
  rw [unwrapLoop]
  simp [peelQuals, peelSwitch]

theorem unwrapLoop_array (t : TypeLoc) :
    unwrapLoop (TypeLoc.array t) = unwrapLoop t := by
  rw [unwrapLoop]
  simp [peelQuals, peelSwitch]

theorem qualsTokens_ne_nil {c v r : Bool} (h : (c || v || r) = true) :
    qualsTokens c v r ≠ [] := by
  cases c <;> cases v <;> cases r <;> simp_all [qualsTokens]

theorem unwrapLoop_qualified {c v r : Bool} (t : TypeLoc)
    (h : (c || v || r) = true) :
    unwrapLoop (TypeLoc.qualified c v r t) =
      (qualsTokens c v r ++ (unwrapLoop t).1, (unwrapLoop t).2) := by
  cases c <;> cases v <;> cases r
  · exact absurd h (by decide)
  all_goals
    cases t <;>
      (rw [unwrapLoop] ;
       simp [peelQuals, peelSwitch, qualsTokens,
         unwrapLoop_pointer, unwrapLoop_lvalueRef, unwrapLoop_rvalueRef,
         unwrapLoop_paren, unwrapLoop_array, unwrapLoop_terminal,
         unwrapLoop_nullLoc])

theorem unwrapTypeLoc_eq_loop (t : TypeLoc) :
    unwrapTypeLoc t = (String.join (unwrapLoop t).1.reverse, (unwrapLoop t).2) := by
  cases t with
  | nullLoc => simp [unwrapTypeLoc, unwrapLoop_nullLoc, String.join]
  | qualified c v r inner => rfl
  | pointer p => rfl
  | lvalueRef p => rfl
  | rvalueRef p => rfl
  | paren i => rfl
  | array e => rfl
  | terminal s => rfl

/-- C8: the unwrapper is a total function that, per iteration, attempts the
qualifier peel first and then the pointer / l-value reference / r-value
reference / parenthesised / array cases of the switch; the returned
modifier string is the concatenation of the peeled tokens in reverse peel
order.  Each equation shows the token contributed by one outermost layer
appended after the prefix of the inner type, so the outermost modifier
reads last in peel order and first from the left of nothing removed; a
parenthesised or array layer contributes no token; a qualifier layer with
at least one local qualifier contributes its tokens reversed. -/
theorem unwrapTypeLoc_spec :
    (∀ t, (unwrapTypeLoc t).1 = String.join (unwrapLoop t).1.reverse) ∧
    unwrapTypeLoc TypeLoc.nullLoc = ("", TypeLoc.nullLoc) ∧
    (∀ s, unwrapTypeLoc (TypeLoc.terminal s) = ("", TypeLoc.terminal s)) ∧
    (∀ t, (unwrapTypeLoc (TypeLoc.pointer t)).1 = (unwrapTypeLoc t).1 ++ "*" ∧
          (unwrapTypeLoc (TypeLoc.pointer t)).2 = (unwrapTypeLoc t).2) ∧
    (∀ t, (unwrapTypeLoc (TypeLoc.lvalueRef t)).1 = (unwrapTypeLoc t).1 ++ "&" ∧
          (unwrapTypeLoc (TypeLoc.lvalueRef t)).2 = (unwrapTypeLoc t).2) ∧
    (∀ t, (unwrapTypeLoc (TypeLoc.rvalueRef t)).1 = (unwrapTypeLoc t).1 ++ "&&" ∧
          (unwrapTypeLoc (TypeLoc.rvalueRef t)).2 = (unwrapTypeLoc t).2) ∧
    (∀ t, unwrapTypeLoc (TypeLoc.paren t) = unwrapTypeLoc t) ∧
    (∀ t, unwrapTypeLoc (TypeLoc.array t) = unwrapTypeLoc t) ∧
    (∀ (c v r : Bool) (t : TypeLoc), (c || v || r) = true →
      (unwrapTypeLoc (TypeLoc.qualified c v r t)).1 =
        (unwrapTypeLoc t).1 ++ String.join (qualsTokens c v r).reverse ∧
      (unwrapTypeLoc (TypeLoc.qualified c v r t)).2 = (unwrapTypeLoc t).2) := by
  refine ⟨fun t => by rw [unwrapTypeLoc_eq_loop], by
      rw [unwrapTypeLoc_eq_loop, unwrapLoop_nullLoc]; rfl,
    fun s => by rw [unwrapTypeLoc_eq_loop, unwrapLoop_terminal]; rfl,
    fun t => ?_, fun t => ?_, fun t => ?_, fun t => ?_, fun t => ?_,
    fun c v r t h => ?_⟩
  · rw [unwrapTypeLoc_eq_loop, unwrapTypeLoc_eq_loop t, unwrapLoop_pointer]
    constructor
    · simp [stringJoin_append, String.join]
    · rfl
  · rw [unwrapTypeLoc_eq_loop, unwrapTypeLoc_eq_loop t, unwrapLoop_lvalueRef]
    constructor
    · simp [stringJoin_append, String.join]
    · rfl
  · rw [unwrapTypeLoc_eq_loop, unwrapTypeLoc_eq_loop t, unwrapLoop_rvalueRef]
    constructor
    · simp [stringJoin_append, String.join]
    · rfl
  · rw [unwrapTypeLoc_eq_loop, unwrapTypeLoc_eq_loop t, unwrapLoop_paren]
  · rw [unwrapTypeLoc_eq_loop, unwrapTypeLoc_eq_loop t, unwrapLoop_array]
  · rw [unwrapTypeLoc_eq_loop, unwrapTypeLoc_eq_loop t, unwrapLoop_qualified t h]
    constructor
    · simp [stringJoin_append]
    · rfl

/-- Witness for C8 at a concrete type: `const volatile int * &` peels
reference, pointer, then the qualifiers, and the modifier string reads the
tokens in reverse peel order. -/
theorem unwrapTypeLoc_spec_witness :
    ((true || true || false) = true) ∧
    unwrapTypeLoc
      (TypeLoc.lvalueRef (TypeLoc.pointer
        (TypeLoc.qualified true true false (TypeLoc.terminal "int")))) =
      ("volatile const *&", TypeLoc.terminal "int") := by
  constructor
  · exact rfl
  · have h := unwrapTypeLoc_spec
    have h1 := (h.2.2.2.2.1
      (TypeLoc.pointer (TypeLoc.qualified true true false (TypeLoc.terminal "int"))))
    have h2 := (h.2.2.2.1
      (TypeLoc.qualified true true false (TypeLoc.terminal "int")))
    have h3 := h.2.2.2.2.2.2.2.2 true true false (TypeLoc.terminal "int") rfl
    have h4 := h.2.2.1 "int"
    have e1 : (unwrapTypeLoc (TypeLoc.terminal "int")).1 = "" := by rw [h4]
    have e2 : (unwrapTypeLoc (TypeLoc.terminal "int")).2 = TypeLoc.terminal "int" := by
      rw [h4]
    apply Prod.ext
    · rw [h1.1, h2.1, h3.1, e1]
      rfl
    · rw [h1.2, h2.2, h3.2, e2]

/-! ### C4: reflexivity of the diff engine -/

theorem flatMap_eq_nil_of {α : Type _} {β : Type _} {l : List α}
    {f : α → List β} (h : ∀ x ∈ l, f x = []) : l.flatMap f = [] := by
  induction l with
  | nil => rfl
  | cons x xs ih =>
      rw [List.flatMap_cons, h x (List.mem_cons_self x xs),
        ih (fun y hy => h y (List.mem_cons_of_mem x hy))]
      rfl

theorem findErase_head {f : KeyFn} (x : APINode) (xs : List APINode) :
    findErase f (f x) (x :: xs) = some (x, xs) := by
  simp [findErase]

theorem differenceGo_self {f : KeyFn} : ∀ l : List APINode, differenceGo f l l = []
  | [] => rfl
  | x :: xs => by
      simp [differenceGo, findErase_head, differenceGo_self xs]

theorem intersectionGo_self {f : KeyFn} :
    ∀ l : List APINode, intersectionGo f l l = l.map (fun x => (x, x))
  | [] => rfl
  | x :: xs => by
      simp [intersectionGo, findErase_head, intersectionGo_self xs]

theorem APINode.diff_self (a : APINode) : a.diff a = [] := by
  unfold APINode.diff
  split <;> simp [attrEntry]

theorem diffNodes_self :
    ∀ (n : APINode) (t1 t2 : NormalizedTree), diffNodes n n t1 t2 = [] := by
  refine APINode.strongInd (fun n => ∀ t1 t2, diffNodes n n t1 t2 = []) ?_
  intro a cs ih t1 t2
  rw [diffNodes_eq]
  by_cases hc :
      (hasChildrenB (APINode.mk a cs) && hasChildrenB (APINode.mk a cs)) = true
  · rw [if_pos hc]
    have hd : childrenDiffOf (APINode.mk a cs) (APINode.mk a cs) t1 t2 = [] := by
      unfold childrenDiffOf
      rw [show (APINode.mk a cs).children = cs from rfl]
      rw [show difference cs cs byQualifiedName = [] from differenceGo_self cs]
      rw [show intersection cs cs byQualifiedName = cs.map (fun x => (x, x)) from
        intersectionGo_self cs]
      rw [APINode.diff_self]
      simp only [List.map_nil, List.nil_append, List.append_nil, List.map_map]
      apply List.flatten_eq_nil_iff.mpr
      intro l hl
      rcases List.mem_map.mp hl with ⟨x, hx, rfl⟩
      exact ih x hx t1 t2
    rw [hd]
    simp
  · rw [if_neg hc]
    exact APINode.diff_self _

/-- C4: diffing a context against itself — identical roots, tree map and
exclusion set on both sides — yields the empty array, provided each root
is bound to itself in the tree map under its qualified name (the lookup
the engine performs on roots). -/
theorem diffTrees_refl (roots : List APINode) (t : NormalizedTree)
    (e : List String)
    (hwf : ∀ r ∈ roots, treeLookup t r.qualifiedName = some r) :
    diffTrees roots roots t t e e = [] := by
  unfold diffTrees
  apply List.append_eq_nil.mpr
  constructor
  · apply flatMap_eq_nil_of
    intro r hr
    by_cases hex : e.contains r.qualifiedName = true
    · rw [if_pos hex]
    · rw [if_neg hex, hwf r hr]
      exact diffNodes_self r t t
  · apply flatMap_eq_nil_of
    intro r hr
    by_cases hex : e.contains r.qualifiedName = true
    · rw [if_pos hex]
    · rw [if_neg hex, hwf r hr]

def c4S : APINode :=
  .mk { qualifiedName := "S", kind := .Struct }
    [.mk { qualifiedName := "S::x", kind := .Field, dataType := "int" } []]

/-- Witness for C4 at a concrete context: one struct root with one field,
registered in the tree map under its qualified name. -/
theorem diffTrees_refl_witness :
    (∀ r ∈ [c4S], treeLookup [("S", c4S)] r.qualifiedName = some r) ∧
    diffTrees [c4S] [c4S] [("S", c4S)] [("S", c4S)] [] [] = [] := by
  have hwf : ∀ r ∈ [c4S], treeLookup [("S", c4S)] r.qualifiedName = some r := by
    intro r hr
    rcases List.mem_singleton.mp hr with rfl
    rfl
  exact ⟨hwf, diffTrees_refl [c4S] [("S", c4S)] [] hwf⟩

/-! ### C2: exclusion -/

def c2SA : APINode :=
  .mk { qualifiedName := "S", kind := .Struct }
    [.mk { qualifiedName := "S::x", kind := .Field, dataType := "int" } []]

def c2SB : APINode :=
  .mk { qualifiedName := "S", kind := .Struct }
    [.mk { qualifiedName := "S::y", kind := .Field, dataType := "int" } []]

/-- Counterexample to C2 as stated: with the qualified name `S::x` in the
exclusion sets of both contexts, the diff of the two single-root contexts
still contains a record with qualifiedName `S::x` under tag removed — the
exclusion sets are only consulted for roots, never for nested records. -/
theorem diffTrees_exclusion_counterexample :
    (["S::x"].contains "S::x" = true) ∧
    (diffTrees [c2SA] [c2SB] [("S", c2SA)] [("S", c2SB)]
        ["S::x"] ["S::x"]).any (hasTaggedQN "S::x") = true := by
  constructor
  · rfl
  · have h1 : diffTrees [c2SA] [c2SB] [("S", c2SA)] [("S", c2SB)]
        ["S::x"] ["S::x"] =
        [DRec.node (some "S") "Struct" none (some tagModified)
          [DRec.node (some "S::x") "Field" (some "int") (some tagRemoved) [],
           DRec.node (some "S::y") "Field" (some "int") (some tagAdded) []]] := by
      have e1 : (["S::x"].contains c2SA.qualifiedName) = false := rfl
      have e2 : (["S::x"].contains c2SB.qualifiedName) = false := rfl
      have l1 : treeLookup [("S", c2SB)] c2SA.qualifiedName = some c2SB := rfl
      have l2 : treeLookup [("S", c2SA)] c2SB.qualifiedName = some c2SA := rfl
      unfold diffTrees
      simp only [List.flatMap_cons, List.flatMap_nil, e1, e2, l1, l2,
        Bool.false_eq_true, if_false, List.append_nil]
      rw [diffNodes_eq]
      simp [childrenDiffOf, c2SA, c2SB, hasChildrenB, APINode.children,
        APINode.qualifiedName, APINode.attrs, APINode.kind, APINode.diff,
        attrEntry, difference, differenceGo, findErase, byQualifiedName,
        intersection, intersectionGo, getJsonFromNode_eq, kindStr,
        toJsonRec_eq, tagModified, tagRemoved, tagAdded]
    rw [h1]
    decide

/-- C2 amended: a qualified name contained in the exclusion sets of both
contexts appears as the qualifiedName of no top-level diff record.  (As
the counterexample shows, nested records are not filtered; exclusion only
suppresses whole roots.) -/
theorem diffTrees_exclusion_top_level (roots1 roots2 : List APINode)
    (t1 t2 : NormalizedTree) (e1 e2 : List String) (qn : String)
    (h1 : e1.contains qn = true) (h2 : e2.contains qn = true) :
    ∀ r ∈ diffTrees roots1 roots2 t1 t2 e1 e2, r.topQN ≠ some qn := by
  intro r hr
  unfold diffTrees at hr
  rcases List.mem_append.mp hr with hm | hm
  · rcases List.mem_flatMap.mp hm with ⟨r1, hr1, hb⟩
    by_cases hex : e1.contains r1.qualifiedName = true
    · rw [if_pos hex] at hb
      exact absurd hb (by simp)
    · rw [if_neg hex] at hb
      have hne : r1.qualifiedName ≠ qn := fun he => hex (he ▸ h1)
      cases hlk : treeLookup t2 r1.qualifiedName with
      | none =>
          rw [hlk] at hb
          rcases List.mem_singleton.mp hb with rfl
          rw [getJsonFromNode_topQN]
          split
          · simp
          · simp [hne]
      | some r2 =>
          rw [hlk] at hb
          rcases diffNodes_top_shape r1 r2 t1 t2 r hb with hq | hq
          · rw [hq]
            simp [hne]
          · rw [hq]
            simp
  · rcases List.mem_flatMap.mp hm with ⟨r2, hr2, hb⟩
    by_cases hex : e2.contains r2.qualifiedName = true
    · rw [if_pos hex] at hb
      exact absurd hb (by simp)
    · rw [if_neg hex] at hb
      have hne : r2.qualifiedName ≠ qn := fun he => hex (he ▸ h2)
      cases hlk : treeLookup t1 r2.qualifiedName with
      | none =>
          rw [hlk] at hb
          rcases List.mem_singleton.mp hb with rfl
          rw [getJsonFromNode_topQN]
          split
          · simp
          · simp [hne]
      | some r1 =>
          rw [hlk] at hb
          exact absurd hb (by simp)

def c2T : APINode := .mk { qualifiedName := "T", kind := .Typedef } []

/-- Witness for the amended C2 at a concrete input: the removed record for
root `T` does not carry the excluded name. -/
theorem diffTrees_exclusion_top_level_witness :
    (["S::x"].contains "S::x" = true) ∧
    (getJsonFromNode c2T tagRemoved).topQN ≠ some "S::x" := by
  have hmem : getJsonFromNode c2T tagRemoved ∈
      diffTrees [c2T] [] [] [] ["S::x"] ["S::x"] := by
    unfold diffTrees
    simp [c2T, treeLookup, APINode.qualifiedName, APINode.attrs]
  exact ⟨rfl, diffTrees_exclusion_top_level [c2T] [] [] [] ["S::x"] ["S::x"]
    "S::x" rfl rfl _ hmem⟩

/-! ### C1: the partition key of diffNodes -/

def c1aP : APIAttrs := { qualifiedName := "P", kind := .Struct }

def c1bP : APIAttrs := { qualifiedName := "P", kind := .Struct }

def c1a1 : APIAttrs :=
  { qualifiedName := "N::f", kind := .Function, dataType := "int (int)" }

def c1a2 : APIAttrs :=
  { qualifiedName := "N::f", kind := .Function, dataType := "int (long)" }

def c1pa : APINode := .mk c1aP [.mk c1a1 []]

def c1pb : APINode := .mk c1bP [.mk c1a2 []]

/-- Counterexample to C1 as stated: both parents carry one `Function`
child with the same qualified name but different dataType (signature).
Under the claimed key extraction the children fall into the removed and
added groups (`diffNodesClaim`); `diffNodes` itself partitions by
`byQualifiedName` only, matches them as a common pair, and emits no
removed or added record — here no record at all. -/
theorem diffNodes_key_extractor_counterexample :
    diffNodes c1pa c1pb [] [] = [] ∧
    (diffNodesClaim c1pa c1pb [] []).any (containsTag tagRemoved) = true ∧
    (diffNodesClaim c1pa c1pb [] []).any (containsTag tagAdded) = true ∧
    diffNodesClaim c1pa c1pb [] [] ≠ diffNodes c1pa c1pb [] [] := by
  have hleaf : diffNodes (APINode.mk c1a1 []) (APINode.mk c1a2 []) [] [] = [] := by
    rw [diffNodes_eq]
    simp [c1a1, c1a2, hasChildrenB, APINode.children, APINode.kind,
      APINode.attrs, APINode.diff, attrEntry]
  have hA : diffNodes c1pa c1pb [] [] = [] := by
    rw [diffNodes_eq]
    have hqq : c1a2.qualifiedName = c1a1.qualifiedName := rfl
    have hdpp : (APINode.mk c1aP [APINode.mk c1a1 []]).diff
        (APINode.mk c1bP [APINode.mk c1a2 []]) = [] := by
      simp [APINode.diff, APINode.kind, APINode.attrs, c1aP, c1bP, attrEntry]
    simp [childrenDiffOf, c1pa, c1pb, hasChildrenB, APINode.children,
      APINode.qualifiedName, APINode.attrs, difference, differenceGo,
      findErase, byQualifiedName, intersection, intersectionGo, hqq, hleaf,
      hdpp]
  have hB : diffNodesClaim c1pa c1pb [] [] =
      [DRec.node (some "P") "Struct" none (some tagModified)
        [DRec.node (some "N::f") "Function" (some "int (int)")
          (some tagRemoved) [],
         DRec.node (some "N::f") "Function" (some "int (long)")
          (some tagAdded) []]] := by
    rw [diffNodesClaim_eq]
    simp [childrenDiffClaimOf, c1pa, c1pb, c1aP, c1bP, c1a1, c1a2,
      hasChildrenB, APINode.children, APINode.qualifiedName, APINode.attrs,
      APINode.kind, APINode.dataType, APINode.diff, attrEntry, difference,
      differenceGo, findErase, specKeyOf, getKeyExtractor, byDatatype,
      byQualifiedName, intersection, intersectionGo, getJsonFromNode_eq,
      toJsonRec_eq, kindStr, tagModified, tagRemoved, tagAdded]
  refine ⟨hA, ?_, ?_, ?_⟩
  · rw [hB]
    decide
  · rw [hB]
    decide
  · rw [hA, hB]
    decide

/-- C1 amended: `diffNodes` partitions children by `byQualifiedName` for
every kind; `getKeyExtractor` is defined in the source but never invoked.
For parents whose single children share a qualified name, the children are
matched as a common pair regardless of kind and signature — no removed or
added record appears at any depth — whereas under the claimed key
extraction two Function children differing in dataType yield removed and
added records. -/
theorem diffNodes_partition_by_qualified_name
    (aP bP a1 a2 : APIAttrs) (t1 t2 : NormalizedTree)
    (hqn : a1.qualifiedName = a2.qualifiedName) :
    noAddedRemoved
      (diffNodes (.mk aP [.mk a1 []]) (.mk bP [.mk a2 []]) t1 t2) = true ∧
    (a1.kind = NodeKind.Function → a2.kind = NodeKind.Function →
      a1.dataType ≠ a2.dataType →
      (diffNodesClaim (.mk aP [.mk a1 []]) (.mk bP [.mk a2 []]) t1 t2).any
          (containsTag tagRemoved) = true ∧
      (diffNodesClaim (.mk aP [.mk a1 []]) (.mk bP [.mk a2 []]) t1 t2).any
          (containsTag tagAdded) = true) := by
  constructor
  · rw [diffNodes_eq]
    have hch : (childrenDiffOf (APINode.mk aP [APINode.mk a1 []])
        (APINode.mk bP [APINode.mk a2 []]) t1 t2).all DRec.isAttrRec = true := by
      unfold childrenDiffOf
      have hrm : difference [APINode.mk a1 []] [APINode.mk a2 []]
          byQualifiedName = [] := by
        simp [difference, differenceGo, findErase, byQualifiedName,
          APINode.qualifiedName, APINode.attrs, hqn]
      have had : difference [APINode.mk a2 []] [APINode.mk a1 []]
          byQualifiedName = [] := by
        simp [difference, differenceGo, findErase, byQualifiedName,
          APINode.qualifiedName, APINode.attrs, hqn]
      have hco : intersection [APINode.mk a1 []] [APINode.mk a2 []]
          byQualifiedName = [(APINode.mk a1 [], APINode.mk a2 [])] := by
        simp [intersection, intersectionGo, findErase, byQualifiedName,
          APINode.qualifiedName, APINode.attrs, hqn]
      rw [show (APINode.mk aP [APINode.mk a1 []]).children =
        [APINode.mk a1 []] from rfl]
      rw [show (APINode.mk bP [APINode.mk a2 []]).children =
        [APINode.mk a2 []] from rfl]
      rw [hrm, had, hco]
      have hleaf : diffNodes (APINode.mk a1 []) (APINode.mk a2 []) t1 t2 =
          (APINode.mk a1 []).diff (APINode.mk a2 []) := by
        rw [diffNodes_eq]
        simp [hasChildrenB, APINode.children]
      simp only [List.map_nil, List.nil_append, List.map_cons,
        List.flatten_cons, List.flatten_nil, List.append_nil, hleaf]
      rw [List.all_append]
      rw [diff_all_attr, diff_all_attr]
      rfl
    split
    · split
      · rfl
      · have h1 : noAddedRemoved
            (childrenDiffOf (APINode.mk aP [APINode.mk a1 []])
              (APINode.mk bP [APINode.mk a2 []]) t1 t2) = true :=
          noAddedRemoved_of_all_attr hch
        simp [noAddedRemoved, drecNoAR, h1, tagModified, tagAdded, tagRemoved]
    · have h2 : noAddedRemoved ((APINode.mk aP [APINode.mk a1 []]).diff
          (APINode.mk bP [APINode.mk a2 []])) = true :=
        noAddedRemoved_of_all_attr (diff_all_attr _ _)
      exact h2
  · intro hk1 hk2 hdt
    have hB : diffNodesClaim (APINode.mk aP [APINode.mk a1 []])
        (APINode.mk bP [APINode.mk a2 []]) t1 t2 =
        [DRec.node (some (APINode.mk aP [APINode.mk a1 []]).qualifiedName)
          (kindStr (APINode.mk aP [APINode.mk a1 []]).kind) none
          (some tagModified)
          (childrenDiffClaimOf (APINode.mk aP [APINode.mk a1 []])
            (APINode.mk bP [APINode.mk a2 []]) t1 t2)] := by
      rw [diffNodesClaim_eq]
      have hne : (childrenDiffClaimOf (APINode.mk aP [APINode.mk a1 []])
          (APINode.mk bP [APINode.mk a2 []]) t1 t2).isEmpty = false := by
        unfold childrenDiffClaimOf
        have hrm : difference [APINode.mk a1 []] [APINode.mk a2 []]
            specKeyOf = [APINode.mk a1 []] := by
          simp [difference, differenceGo, findErase, specKeyOf,
            getKeyExtractor, byDatatype, byQualifiedName, APINode.kind,
            APINode.dataType, APINode.attrs, hk1, hk2, Ne.symm hdt]
        rw [show (APINode.mk aP [APINode.mk a1 []]).children =
          [APINode.mk a1 []] from rfl]
        rw [show (APINode.mk bP [APINode.mk a2 []]).children =
          [APINode.mk a2 []] from rfl]
        rw [hrm]
        simp
      rw [hne]
      simp [hasChildrenB, APINode.children]
    have hcd : childrenDiffClaimOf (APINode.mk aP [APINode.mk a1 []])
        (APINode.mk bP [APINode.mk a2 []]) t1 t2 =
        getJsonFromNode (APINode.mk a1 []) tagRemoved ::
          getJsonFromNode (APINode.mk a2 []) tagAdded ::
          (APINode.mk aP [APINode.mk a1 []]).diff
            (APINode.mk bP [APINode.mk a2 []]) := by
      unfold childrenDiffClaimOf
      have hrm : difference [APINode.mk a1 []] [APINode.mk a2 []]
          specKeyOf = [APINode.mk a1 []] := by
        simp [difference, differenceGo, findErase, specKeyOf,
          getKeyExtractor, byDatatype, byQualifiedName, APINode.kind,
          APINode.dataType, APINode.attrs, hk1, hk2, Ne.symm hdt]
      have had : difference [APINode.mk a2 []] [APINode.mk a1 []]
          specKeyOf = [APINode.mk a2 []] := by
        simp [difference, differenceGo, findErase, specKeyOf,
          getKeyExtractor, byDatatype, byQualifiedName, APINode.kind,
          APINode.dataType, APINode.attrs, hk1, hk2, hdt]
      have hco : intersection [APINode.mk a1 []] [APINode.mk a2 []]
          specKeyOf = [] := by
        simp [intersection, intersectionGo, findErase, specKeyOf,
          getKeyExtractor, byDatatype, byQualifiedName, APINode.kind,
          APINode.dataType, APINode.attrs, hk1, hk2, Ne.symm hdt]
      rw [show (APINode.mk aP [APINode.mk a1 []]).children =
        [APINode.mk a1 []] from rfl]
      rw [show (APINode.mk bP [APINode.mk a2 []]).children =
        [APINode.mk a2 []] from rfl]
      rw [hrm, had, hco]
      simp
    constructor
    · rw [hB, hcd]
      simp [containsTag, containsTagList, getJsonFromNode_eq, List.any_cons,
        tagModified, tagRemoved]
    · rw [hB, hcd]
      simp [containsTag, containsTagList, getJsonFromNode_eq, List.any_cons,
        tagModified, tagAdded]

/-- Witness for the amended C1 at the concrete overload pair. -/
theorem diffNodes_partition_by_qualified_name_witness :
    noAddedRemoved (diffNodes c1pa c1pb [] []) = true ∧
    (diffNodesClaim c1pa c1pb [] []).any (containsTag tagRemoved) = true := by
  have h := diffNodes_partition_by_qualified_name c1aP c1bP c1a1 c1a2 [] [] rfl
  exact ⟨h.1, (h.2 rfl rfl (by decide)).1⟩

/-! ### C3: change category and compatibility verdict -/

theorem foldl_append_eq_flatMap {α : Type _} {β : Type _} (f : α → List β) :
    ∀ (l : List α) (acc : List β),
      l.foldl (fun a c => a ++ f c) acc = acc ++ l.flatMap f
  | [], acc => by simp
  | x :: xs, acc => by
      rw [List.foldl_cons, foldl_append_eq_flatMap f xs (acc ++ f x),
        List.flatMap_cons, List.append_assoc]

theorem to_change_category_eq_func {raw : String} {top : Bool} :
    to_change_category raw top = "Functionality_changed" ↔
      (raw = "added" ∧ top = true) := by
  unfold to_change_category
  split
  · next hc => simp [hc.1, hc.2]
  · next hc =>
      constructor
      · intro he
        exact absurd he (by decide)
      · intro he
        exact absurd ⟨he.1, he.2⟩ hc

theorem to_change_category_eq_compat {raw : String} {top : Bool} :
    to_change_category raw top = "Compatibility_changed" ↔
      ¬ (raw = "added" ∧ top = true) := by
  unfold to_change_category
  split
  · next hc =>
      constructor
      · intro he
        exact absurd he (by decide)
      · intro he
        exact absurd hc he
  · next hc => simp [hc]

theorem to_record_compat_rule (c : AtomicChange) :
    ((to_record c).changetype = "Compatibility_changed" →
      (to_record c).compatibility = "backward_incompatible") ∧
    ((to_record c).changetype = "Functionality_changed" →
      (to_record c).compatibility = "backward_compatible") := by
  unfold to_record
  constructor
  · intro h
    simp only at h
    simp [h]
  · intro h
    simp only at h
    rw [h] at *
    simp_all

/-- C3: a record produced by `preprocess_api_changes` (which processes the
top-level diff entries one by one) has changetype `Functionality_changed`
exactly when its originating top-level entry is tagged `added`; every
other record — removed, modified, nested added, attribute change — gets
`Compatibility_changed`; and the compatibility field is the deterministic
function of the changetype. -/
theorem preprocess_changetype_compatibility :
    ∀ (hdr : String) (diffs : List DJ),
      preprocess_api_changes diffs hdr = diffs.flatMap (processEntry hdr) ∧
      ∀ (entry : DJ) (rec : ChangeRecord), rec ∈ processEntry hdr entry →
        ((rec.changetype = "Functionality_changed" ↔ entry.tag = "added") ∧
         (rec.changetype = "Compatibility_changed" ↔ entry.tag ≠ "added") ∧
         (rec.changetype = "Compatibility_changed" →
           rec.compatibility = "backward_incompatible") ∧
         (rec.changetype = "Functionality_changed" →
           rec.compatibility = "backward_compatible")) := by
  intro hdr diffs
  constructor
  · unfold preprocess_api_changes
    rw [foldl_append_eq_flatMap (processEntry hdr) diffs []]
    rfl
  · intro entry rec hmem
    have hrec : ∃ c : AtomicChange,
        rec = to_record c ∧
        (to_change_category c.rawChange c.topLevel = "Functionality_changed" ↔
          entry.tag = "added") := by
      unfold processEntry at hmem
      by_cases h1 : entry.ntD ≠ "Function"
      · rw [if_pos h1] at hmem
        rcases List.mem_singleton.mp hmem with rfl
        refine ⟨_, rfl, ?_⟩
        rw [to_change_category_eq_func]
        simp only
        constructor
        · intro hc
          exact hc.1
        · intro hc
          exact ⟨hc, by simp [hc]⟩
      · rw [if_neg h1] at hmem
        by_cases h2 : entry.tag = "added"
        · rw [if_pos h2] at hmem
          rcases List.mem_singleton.mp hmem with rfl
          refine ⟨_, rfl, ?_⟩
          rw [to_change_category_eq_func]
          simp [h2]
        · rw [if_neg h2] at hmem
          by_cases h3 : entry.tag = "removed"
          · rw [if_pos h3] at hmem
            rcases List.mem_singleton.mp hmem with rfl
            refine ⟨_, rfl, ?_⟩
            rw [to_change_category_eq_func]
            simp [h2, h3]
          · rw [if_neg h3] at hmem
            rcases List.mem_map.mp hmem with ⟨r, hr, rfl⟩
            refine ⟨_, rfl, ?_⟩
            rw [to_change_category_eq_func]
            simp [h2]
    rcases hrec with ⟨c, rfl, hiff⟩
    have hct : (to_record c).changetype =
        to_change_category c.rawChange c.topLevel := rfl
    refine ⟨by rw [hct]; exact hiff, ?_, (to_record_compat_rule c).1,
      (to_record_compat_rule c).2⟩
    rw [hct, to_change_category_eq_compat]
    rw [to_change_category_eq_func] at hiff
    constructor
    · intro hn he
      exact hn (hiff.mpr he)
    · intro hn hc
      exact hn (hiff.mp hc)

def c3entry : DJ := DJ.mk "added" (some "Function") (some "f") "" [] "" "" none

/-- Witness for C3: a top-level Function entry tagged added yields a
Functionality_changed, backward_compatible record. -/
def c3row : AtomicChange :=
  { headerfile := "h", apiName := "f", detail := "Function added"
    rawChange := "added", topLevel := true }

theorem preprocess_changetype_compatibility_witness :
    (to_record c3row).changetype = "Functionality_changed" ∧
    (to_record c3row).compatibility = "backward_compatible" := by
  have hmem : to_record c3row ∈ processEntry "h" c3entry := by
    unfold processEntry c3row
    simp [c3entry, DJ.ntD, DJ.nodeTypeOpt, DJ.tag, DJ.qnUnknown,
      DJ.qualifiedNameOpt]
  have h := (preprocess_changetype_compatibility "h" []).2 c3entry _ hmem
  have hct := h.1.mpr rfl
  exact ⟨hct, h.2.2.2 hct⟩

/-! ### C6: grouping of records by (headerfile, name) -/

/-- The rows contributing to the bucket of key `k`. -/
def contribs (rows : List ChangeRecord) (k : DescKey) : List ChangeRecord :=
  rows.filter (fun r => (r.headerfile, r.name) = k)

def bLookup (k : DescKey) : List (DescKey × Agg) → Option Agg
  | [] => none
  | (k', a) :: rest => if k' = k then some a else bLookup k rest

theorem descKeyLt_iff (k k' : DescKey) :
    descKeyLt k k' = true ↔ (k.1 < k'.1 ∨ (k.1 = k'.1 ∧ k.2 < k'.2)) := by
  simp [descKeyLt]

theorem descKeyLt_irrefl (k : DescKey) : descKeyLt k k = false := by
  simp [descKeyLt]

theorem descKeyLt_ne {k k' : DescKey} (h : descKeyLt k k' = true) : k ≠ k' := by
  intro he
  subst he
  rw [descKeyLt_irrefl] at h
  exact absurd h (by simp)

theorem descKeyLt_trans {a b c : DescKey} (h1 : descKeyLt a b = true)
    (h2 : descKeyLt b c = true) : descKeyLt a c = true := by
  rw [descKeyLt_iff] at h1 h2 ⊢
  rcases h1 with h1 | h1 <;> rcases h2 with h2 | h2
  · exact Or.inl (lt_trans h1 h2)
  · exact Or.inl (h2.1 ▸ h1)
  · exact Or.inl (h1.1 ▸ h2)
  · exact Or.inr ⟨h1.1.trans h2.1, lt_trans h1.2 h2.2⟩

theorem descKey_trichotomy (k k' : DescKey) :
    k = k' ∨ descKeyLt k k' = true ∨ descKeyLt k' k = true := by
  rcases lt_trichotomy k.1 k'.1 with h1 | h1 | h1
  · exact Or.inr (Or.inl ((descKeyLt_iff _ _).mpr (Or.inl h1)))
  · rcases lt_trichotomy k.2 k'.2 with h2 | h2 | h2
    · exact Or.inr (Or.inl ((descKeyLt_iff _ _).mpr (Or.inr ⟨h1, h2⟩)))
    · left
      cases k
      cases k'
      simp_all
    · exact Or.inr (Or.inr ((descKeyLt_iff _ _).mpr (Or.inr ⟨h1.symm, h2⟩)))
  · exact Or.inr (Or.inr ((descKeyLt_iff _ _).mpr (Or.inl h1)))

def SortedB (b : List (DescKey × Agg)) : Prop :=
  List.Pairwise (fun p q => descKeyLt p.1 q.1 = true) b

theorem bucketsIns_mem {r : ChangeRecord} :
    ∀ {b : List (DescKey × Agg)} {q : DescKey × Agg}, q ∈ bucketsIns r b →
      q.1 = (r.headerfile, r.name) ∨ q ∈ b := by
  intro b
  induction b with
  | nil =>
      intro q h
      rcases List.mem_singleton.mp h with rfl
      exact Or.inl rfl
  | cons p rest ih =>
      obtain ⟨k', a'⟩ := p
      intro q h
      unfold bucketsIns at h
      split at h
      · rcases List.mem_cons.mp h with rfl | h2
        · exact Or.inl rfl
        · exact Or.inr h2
      · split at h
        · next heq =>
            rcases List.mem_cons.mp h with rfl | h2
            · exact Or.inl heq.symm
            · exact Or.inr (List.mem_cons_of_mem _ h2)
        · rcases List.mem_cons.mp h with rfl | h2
          · exact Or.inr (List.mem_cons_self _ _)
          · rcases ih h2 with h3 | h3
            · exact Or.inl h3
            · exact Or.inr (List.mem_cons_of_mem _ h3)

theorem bucketsIns_sorted {b : List (DescKey × Agg)} (r : ChangeRecord)
    (hs : SortedB b) : SortedB (bucketsIns r b) := by
  induction b with
  | nil => simp [bucketsIns, SortedB]
  | cons p rest ih =>
      obtain ⟨k', a'⟩ := p
      rcases List.pairwise_cons.mp hs with ⟨hall, hrest⟩
      unfold bucketsIns
      split
      · next hlt =>
          apply List.pairwise_cons.mpr
          refine ⟨?_, hs⟩
          intro q hq
          rcases List.mem_cons.mp hq with rfl | h2
          · exact hlt
          · exact descKeyLt_trans hlt (hall q h2)
      · split
        · next hne heq =>
            apply List.pairwise_cons.mpr
            refine ⟨?_, hrest⟩
            intro q hq
            exact hall q hq
        · next hne hne2 =>
            apply List.pairwise_cons.mpr
            refine ⟨?_, ih hrest⟩
            intro q hq
            rcases bucketsIns_mem hq with h3 | h3
            · rw [h3]
              rcases descKey_trichotomy k' (r.headerfile, r.name) with h4 | h4 | h4
              · exact absurd h4.symm hne2
              · exact h4
              · exact absurd h4 hne
            · exact hall q h3

theorem bLookup_none_of_lt_all {x : DescKey} :
    ∀ {b : List (DescKey × Agg)}, (∀ q ∈ b, descKeyLt x q.1 = true) →
      bLookup x b = none := by
  intro b
  induction b with
  | nil => intro _; rfl
  | cons p rest ih =>
      obtain ⟨k', a'⟩ := p
      intro hall
      unfold bLookup
      rw [if_neg, ih (fun q hq => hall q (List.mem_cons_of_mem _ hq))]
      intro he
      exact descKeyLt_ne (hall (k', a') (List.mem_cons_self _ _)) he.symm

theorem mem_bLookup : ∀ {b : List (DescKey × Agg)}, SortedB b →
    ∀ {k : DescKey} {a : Agg}, (k, a) ∈ b → bLookup k b = some a := by
  intro b
  induction b with
  | nil => intro _ k a h; exact absurd h (by simp)
  | cons p rest ih =>
      obtain ⟨k', a'⟩ := p
      intro hs k a h
      rcases List.pairwise_cons.mp hs with ⟨hall, hrest⟩
      rcases List.mem_cons.mp h with he | h2
      · have h1 : k = k' := congrArg Prod.fst he
        have h2 : a = a' := congrArg Prod.snd he
        unfold bLookup
        rw [if_pos h1.symm, h2]
      · unfold bLookup
        rw [if_neg, ih hrest h2]
        intro he
        exact descKeyLt_ne (hall (k, a) h2) he

theorem bLookup_some_mem : ∀ {b : List (DescKey × Agg)} {k : DescKey} {a : Agg},
    bLookup k b = some a → (k, a) ∈ b := by
  intro b
  induction b with
  | nil => intro k a h; exact absurd h (by simp [bLookup])
  | cons p rest ih =>
      obtain ⟨k', a'⟩ := p
      intro k a h
      unfold bLookup at h
      split at h
      · next he =>
          rcases Option.some.inj h with rfl
          rw [← he]
          exact List.mem_cons_self _ _
      · exact List.mem_cons_of_mem _ (ih h)

theorem bLookup_cons (k k' : DescKey) (a' : Agg) (rest : List (DescKey × Agg)) :
    bLookup k ((k', a') :: rest) = if k' = k then some a' else bLookup k rest :=
  rfl

theorem bucketsIns_lookup : ∀ {b : List (DescKey × Agg)}, SortedB b →
    ∀ (r : ChangeRecord) (k : DescKey),
      bLookup k (bucketsIns r b) =
        if k = (r.headerfile, r.name)
        then some (aggUpd ((bLookup k b).getD {}) r)
        else bLookup k b := by
  intro b
  induction b with
  | nil =>
      intro _ r k
      unfold bucketsIns bLookup
      split
      · next he =>
          rw [if_pos he.symm]
          rfl
      · next he =>
          rw [if_neg (fun h2 => he h2.symm)]
          rfl
  | cons p rest ih =>
      obtain ⟨k', a'⟩ := p
      intro hs r k
      rcases List.pairwise_cons.mp hs with ⟨hall, hrest⟩
      unfold bucketsIns
      split
      · next hlt =>
          rw [bLookup_cons]
          split
          · next he =>
              rw [if_pos he.symm]
              have hnone : bLookup k ((k', a') :: rest) = none := by
                apply bLookup_none_of_lt_all
                intro q hq
                rcases List.mem_cons.mp hq with rfl | h2
                · rw [← he]
                  exact hlt
                · rw [← he]
                  exact descKeyLt_trans hlt (hall q h2)
              rw [hnone]
              rfl
          · next he =>
              rw [if_neg (fun h2 => he h2.symm)]
      · split
        · next hne heq =>
            rw [bLookup_cons]
            split
            · next he =>
                rw [if_pos (he.symm.trans heq.symm), bLookup_cons, if_pos he]
                rfl
            · next he =>
                rw [if_neg (fun h2 => he (h2.trans heq).symm), bLookup_cons,
                  if_neg he]
        · next hne hne2 =>
            rw [bLookup_cons]
            split
            · next he =>
                rw [if_neg (fun h2 => hne2 (he.trans h2).symm), bLookup_cons,
                  if_pos he]
            · next he =>
                rw [ih hrest r k, bLookup_cons, if_neg he]

def optFold (o : Option Agg) (rs : List ChangeRecord) : Option Agg :=
  rs.foldl (fun acc r => some (aggUpd (acc.getD {}) r)) o

theorem optFold_some (rs : List ChangeRecord) :
    ∀ a : Agg, optFold (some a) rs = some (rs.foldl aggUpd a) := by
  induction rs with
  | nil => intro a; rfl
  | cons r rest ih =>
      intro a
      show optFold (some (aggUpd a r)) rest = _
      rw [ih (aggUpd a r)]
      rfl

theorem optFold_none (rs : List ChangeRecord) :
    optFold none rs =
      if rs.isEmpty then none else some (rs.foldl aggUpd {}) := by
  cases rs with
  | nil => rfl
  | cons r rest =>
      show optFold (some (aggUpd {} r)) rest = _
      rw [optFold_some]
      rfl

theorem buckets_fold_sorted (rows : List ChangeRecord) :
    ∀ b : List (DescKey × Agg), SortedB b →
      SortedB (rows.foldl (fun b r => bucketsIns r b) b) := by
  induction rows with
  | nil => intro b hs; exact hs
  | cons r rest ih =>
      intro b hs
      exact ih (bucketsIns r b) (bucketsIns_sorted r hs)

theorem buckets_fold_lookup (rows : List ChangeRecord) :
    ∀ (b : List (DescKey × Agg)), SortedB b → ∀ k : DescKey,
      bLookup k (rows.foldl (fun b r => bucketsIns r b) b) =
        optFold (bLookup k b) (contribs rows k) := by
  induction rows with
  | nil => intro b _ k; rfl
  | cons r rest ih =>
      intro b hs k
      rw [List.foldl_cons, ih (bucketsIns r b) (bucketsIns_sorted r hs) k,
        bucketsIns_lookup hs r k]
      unfold contribs
      rw [List.filter_cons]
      by_cases hk : ((r.headerfile, r.name) : DescKey) = k
      · rw [if_pos hk.symm, if_pos (show decide ((r.headerfile, r.name) = k) =
          true from by simp [hk])]
        rfl
      · rw [if_neg (fun h2 => hk h2.symm), if_neg (show ¬ decide
          ((r.headerfile, r.name) = k) = true from by simp [hk])]

theorem aggUpd_anyCompat (a : Agg) (r : ChangeRecord) :
    (aggUpd a r).anyCompatibilityChanged =
      (a.anyCompatibilityChanged ||
        decide (r.changetype = "Compatibility_changed")) := by
  unfold aggUpd
  split_ifs <;> simp_all

theorem foldl_aggUpd_anyCompat (rs : List ChangeRecord) :
    ∀ a : Agg, (rs.foldl aggUpd a).anyCompatibilityChanged =
      (a.anyCompatibilityChanged ||
        rs.any (fun r => r.changetype = "Compatibility_changed")) := by
  induction rs with
  | nil => intro a; simp
  | cons r rest ih =>
      intro a
      rw [List.foldl_cons, ih (aggUpd a r), aggUpd_anyCompat, List.any_cons,
        Bool.or_assoc]

theorem aggUpd_descriptions (a : Agg) (r : ChangeRecord) :
    (aggUpd a r).descriptions =
      a.descriptions ++
        (if r.description = "" then [] else [r.description]) := by
  unfold aggUpd
  split_ifs <;> simp_all

theorem foldl_aggUpd_descriptions (rs : List ChangeRecord) :
    ∀ a : Agg, (rs.foldl aggUpd a).descriptions =
      a.descriptions ++ rs.filterMap (fun r =>
        if r.description = "" then none else some r.description) := by
  induction rs with
  | nil => intro a; simp
  | cons r rest ih =>
      intro a
      rw [List.foldl_cons, ih (aggUpd a r), aggUpd_descriptions,
        List.filterMap_cons]
      by_cases hd : r.description = ""
      · simp [hd]
      · simp [hd]

/-- C6: the report emitter groups the records by the pair
(headerfile, name): every emitted group is the rendered aggregate of the
rows sharing one key, every row's key yields a group, and the rendered
aggregate's change type collapses to Compatibility Changed exactly when
some contributor is Compatibility_changed (else Functionality Added), its
compatibility is backward_incompatible exactly in that case, and its
description is the newline-joined concatenation of the non-empty
contributing descriptions. -/
theorem group_records_by_function_spec :
    ∀ rows : List ChangeRecord,
      (∀ g ∈ group_records_by_function rows, ∃ k : DescKey,
        contribs rows k ≠ [] ∧
          g = renderAgg ((contribs rows k).foldl aggUpd {})) ∧
      (∀ r ∈ rows,
        renderAgg ((contribs rows (r.headerfile, r.name)).foldl aggUpd {}) ∈
          group_records_by_function rows) ∧
      (∀ rs : List ChangeRecord,
        ((renderAgg (rs.foldl aggUpd {})).changetype =
          if rs.any (fun r => r.changetype = "Compatibility_changed")
          then "Compatibility Changed" else "Functionality Added") ∧
        ((renderAgg (rs.foldl aggUpd {})).compatibility =
          if rs.any (fun r => r.changetype = "Compatibility_changed")
          then "backward_incompatible" else "backward_compatible") ∧
        ((renderAgg (rs.foldl aggUpd {})).description =
          String.intercalate "\n"
            (rs.filterMap (fun r =>
              if r.description = "" then none else some r.description)))) := by
  intro rows
  have hsorted : SortedB (rows.foldl (fun b r => bucketsIns r b) []) :=
    buckets_fold_sorted rows [] (by simp [SortedB])
  refine ⟨?_, ?_, ?_⟩
  · intro g hg
    rcases List.mem_map.mp hg with ⟨kv, hkv, rfl⟩
    obtain ⟨k, a⟩ := kv
    have hl : bLookup k (rows.foldl (fun b r => bucketsIns r b) []) = some a :=
      mem_bLookup hsorted hkv
    rw [buckets_fold_lookup rows [] (by simp [SortedB]) k] at hl
    rw [show bLookup k ([] : List (DescKey × Agg)) = none from rfl,
      optFold_none] at hl
    split at hl
    · exact absurd hl (by simp)
    · next hne =>
        refine ⟨k, by simpa using hne, ?_⟩
        rcases Option.some.inj hl with rfl
        rfl
  · intro r hr
    have hcn : contribs rows (r.headerfile, r.name) ≠ [] := by
      have : r ∈ contribs rows (r.headerfile, r.name) := by
        unfold contribs
        apply List.mem_filter.mpr
        exact ⟨hr, by simp⟩
      intro he
      rw [he] at this
      exact absurd this (by simp)
    have hl : bLookup (r.headerfile, r.name)
        (rows.foldl (fun b r => bucketsIns r b) []) =
        some ((contribs rows (r.headerfile, r.name)).foldl aggUpd {}) := by
      rw [buckets_fold_lookup rows [] (by simp [SortedB]) _]
      rw [show bLookup (r.headerfile, r.name) ([] : List (DescKey × Agg)) =
        none from rfl, optFold_none]
      rw [if_neg (by simpa using hcn)]
    have hmem := bLookup_some_mem hl
    unfold group_records_by_function
    exact List.mem_map.mpr ⟨_, hmem, rfl⟩
  · intro rs
    refine ⟨?_, ?_, ?_⟩
    · show (renderAgg (rs.foldl aggUpd {})).changetype = _
      unfold renderAgg
      rw [show ∀ a : Agg, (⟨a.headerfile, a.name,
        String.intercalate "\n" a.descriptions,
        if a.anyCompatibilityChanged then "Compatibility Changed"
        else "Functionality Added",
        if a.anyCompatibilityChanged then "backward_incompatible"
        else "backward_compatible"⟩ : ChangeRecord).changetype =
        if a.anyCompatibilityChanged then "Compatibility Changed"
        else "Functionality Added" from fun a => rfl]
      rw [foldl_aggUpd_anyCompat]
      simp
    · unfold renderAgg
      rw [show ∀ a : Agg, (⟨a.headerfile, a.name,
        String.intercalate "\n" a.descriptions,
        if a.anyCompatibilityChanged then "Compatibility Changed"
        else "Functionality Added",
        if a.anyCompatibilityChanged then "backward_incompatible"
        else "backward_compatible"⟩ : ChangeRecord).compatibility =
        if a.anyCompatibilityChanged then "backward_incompatible"
        else "backward_compatible" from fun a => rfl]
      rw [foldl_aggUpd_anyCompat]
      simp
    · unfold renderAgg
      rw [show ∀ a : Agg, (⟨a.headerfile, a.name,
        String.intercalate "\n" a.descriptions,
        if a.anyCompatibilityChanged then "Compatibility Changed"
        else "Functionality Added",
        if a.anyCompatibilityChanged then "backward_incompatible"
        else "backward_compatible"⟩ : ChangeRecord).description =
        String.intercalate "\n" a.descriptions from fun a => rfl]
      rw [foldl_aggUpd_descriptions]
      rfl

def c6row : ChangeRecord :=
  { headerfile := "h", name := "f", description := "d"
    changetype := "Compatibility_changed", compatibility := "" }

/-- Witness for C6 at one concrete row. -/
theorem group_records_by_function_spec_witness :
    (renderAgg ((contribs [c6row] ("h", "f")).foldl aggUpd {}) ∈
      group_records_by_function [c6row]) ∧
    (renderAgg ((contribs [c6row] ("h", "f")).foldl aggUpd {})).changetype =
      "Compatibility Changed" := by
  have h := group_records_by_function_spec [c6row]
  constructor
  · exact h.2.1 c6row (List.mem_singleton.mpr rfl)
  · rw [(h.2.2 (contribs [c6row] ("h", "f"))).1]
    decide

/-! ### C7: parameter rename pairing -/

theorem looks_like_rename_iff (r a : DJ) :
    looks_like_rename r a = true ↔
      (r.ntD = "Parameter" ∧ a.ntD = "Parameter" ∧ r.dataType ≠ "" ∧
        r.dataType = a.dataType) := by
  unfold looks_like_rename
  split
  · next hcond =>
      constructor
      · intro hf
        exact absurd hf (by simp)
      · intro hc
        rcases hcond with h | h
        · exact absurd hc.1 h
        · exact absurd hc.2.1 h
  · next hcond =>
      push_neg at hcond
      simp only [decide_eq_true_eq]
      constructor
      · intro hc
        exact ⟨hcond.1, hcond.2, hc.1, hc.2⟩
      · intro hc
        exact ⟨hc.2.2.1, hc.2.2.2⟩

theorem insertMM_perm (k : String) (v : Nat × DJ) :
    ∀ l : List (String × Nat × DJ), (insertMM k v l).Perm ((k, v) :: l)
  | [] => List.Perm.refl _
  | (k0, v0) :: rest => by
      unfold insertMM
      split
      · exact List.Perm.refl _
      · exact ((insertMM_perm k v rest).cons (k0, v0)).trans
          (List.Perm.swap (k, v) (k0, v0) rest)

theorem foldl_insertMM_perm :
    ∀ (l : List (Nat × DJ)) (acc : List (String × Nat × DJ)),
      (l.foldl (fun acc p => insertMM p.2.dataType (p.1, p.2) acc) acc).Perm
        (acc ++ l.map (fun p => (p.2.dataType, p.1, p.2)))
  | [], acc => by simp
  | p :: rest, acc => by
      rw [List.foldl_cons, List.map_cons]
      refine (foldl_insertMM_perm rest _).trans ?_
      refine (((insertMM_perm p.2.dataType (p.1, p.2)) acc).append_right
        _).trans ?_
      exact List.perm_middle.symm

theorem buildMM_perm (params : List DJ) :
    (buildMM params).Perm
      (params.enum.map (fun p => (p.2.dataType, p.1, p.2))) := by
  unfold buildMM
  simpa using foldl_insertMM_perm params.enum []

theorem buildMM_map_param (params : List DJ) :
    ((buildMM params).map (fun e => e.2.2)).Perm params := by
  refine ((buildMM_perm params).map (fun e => e.2.2)).trans ?_
  have h : (params.enum.map (fun p => (p.2.dataType, p.1, p.2))).map
      (fun (e : String × Nat × DJ) => e.2.2) =
      params.enum.map Prod.snd := by
    rw [List.map_map]
    rfl
  rw [h, List.enum_map_snd]

theorem buildMM_mem {params : List DJ} {e : String × Nat × DJ}
    (h : e ∈ buildMM params) : e.1 = e.2.2.dataType ∧ e.2.2 ∈ params := by
  have h2 := (buildMM_perm params).mem_iff.mp h
  rcases List.mem_map.mp h2 with ⟨p, hp, he⟩
  constructor
  · rw [← he]
  · rw [← he]
    show p.2 ∈ params
    have h3 := List.mem_map_of_mem Prod.snd hp
    rw [List.enum_map_snd] at h3
    exact h3

theorem findRename_some {r : DJ} {dt : String} {mAcc : List Nat}
    {ai : Nat} {a : DJ} :
    ∀ {l : List (String × Nat × DJ)},
      findRename r dt mAcc l = some (ai, a) →
      (dt, ai, a) ∈ l ∧ mAcc.contains ai = false ∧
        looks_like_rename r a = true
  | [], h => absurd h (by simp [findRename])
  | (k0, i0, a0) :: rest, h => by
      unfold findRename at h
      split at h
      · next hc =>
          have he := Option.some.inj h
          have hai : i0 = ai := congrArg Prod.fst he
          have ha0 : a0 = a := congrArg (fun p => p.2) he
          subst hai
          subst ha0
          refine ⟨?_, by simpa using hc.2.1, hc.2.2⟩
          rw [← hc.1]
          exact List.mem_cons_self _ _
      · next hc =>
          rcases findRename_some h with ⟨h1, h2, h3⟩
          exact ⟨List.mem_cons_of_mem _ h1, h2, h3⟩

theorem findRename_none {r : DJ} {dt : String} {mAcc : List Nat} :
    ∀ {l : List (String × Nat × DJ)}, findRename r dt mAcc l = none →
      ∀ e ∈ l, ¬ (e.1 = dt ∧ mAcc.contains e.2.1 = false ∧
        looks_like_rename r e.2.2 = true)
  | [], _, e, he => absurd he (by simp)
  | (k0, i0, a0) :: rest, h, e, he => by
      unfold findRename at h
      split at h
      · exact absurd h (by simp)
      · next hc =>
          rcases List.mem_cons.mp he with rfl | h2
          · intro hcon
            exact hc ⟨hcon.1, by simpa using hcon.2.1, hcon.2.2⟩
          · exact findRename_none h e h2

theorem renameLoop_cons_some (hdr api : String)
    (addedBT : List (String × Nat × DJ)) (dt : String) (ri : Nat) (r : DJ)
    (rest : List (String × Nat × DJ)) (mAcc : List Nat) (ai : Nat) (a : DJ)
    (hfind : findRename r dt mAcc addedBT = some (ai, a)) :
    renameLoop hdr api addedBT ((dt, ri, r) :: rest) mAcc =
      (mkRenameRow hdr api r a dt ::
          (renameLoop hdr api addedBT rest (ai :: mAcc)).1,
        ri :: (renameLoop hdr api addedBT rest (ai :: mAcc)).2.1,
        (renameLoop hdr api addedBT rest (ai :: mAcc)).2.2) := by
  simp only [renameLoop, hfind]

theorem renameLoop_cons_none (hdr api : String)
    (addedBT : List (String × Nat × DJ)) (dt : String) (ri : Nat) (r : DJ)
    (rest : List (String × Nat × DJ)) (mAcc : List Nat)
    (hfind : findRename r dt mAcc addedBT = none) :
    renameLoop hdr api addedBT ((dt, ri, r) :: rest) mAcc =
      renameLoop hdr api addedBT rest mAcc := by
  simp only [renameLoop, hfind]

theorem renameLoop_matchedA_mono (hdr api : String)
    (addedBT : List (String × Nat × DJ)) :
    ∀ (rem : List (String × Nat × DJ)) (mAcc : List Nat) (i : Nat),
      mAcc.contains i = true →
      (renameLoop hdr api addedBT rem mAcc).2.2.contains i = true
  | [], _, _, h => h
  | (dt, ri, r) :: rest, mAcc, i, h => by
      cases hfind : findRename r dt mAcc addedBT with
      | some pr =>
          obtain ⟨ai, a⟩ := pr
          rw [renameLoop_cons_some hdr api addedBT dt ri r rest mAcc ai a hfind]
          refine renameLoop_matchedA_mono hdr api addedBT rest (ai :: mAcc) i ?_
          have hm : i ∈ mAcc := by simpa using h
          simp [List.contains_cons, hm]
      | none =>
          rw [renameLoop_cons_none hdr api addedBT dt ri r rest mAcc hfind]
          exact renameLoop_matchedA_mono hdr api addedBT rest mAcc i h

theorem renameLoop_rows (hdr api : String)
    (addedBT : List (String × Nat × DJ)) :
    ∀ (rem : List (String × Nat × DJ)) (mAcc : List Nat),
      ∀ row ∈ (renameLoop hdr api addedBT rem mAcc).1,
        ∃ er ∈ rem, ∃ ea ∈ addedBT, ea.1 = er.1 ∧
          looks_like_rename er.2.2 ea.2.2 = true ∧
          row = mkRenameRow hdr api er.2.2 ea.2.2 er.1
  | [], mAcc => by
      intro row h
      exact absurd h (by simp [renameLoop])
  | (dt, ri, r) :: rest, mAcc => by
      intro row h
      cases hfind : findRename r dt mAcc addedBT with
      | some pr =>
          obtain ⟨ai, a⟩ := pr
          rw [renameLoop_cons_some hdr api addedBT dt ri r rest mAcc ai a
            hfind] at h
          rcases List.mem_cons.mp h with rfl | h2
          · rcases findRename_some hfind with ⟨hmem, _, hlr⟩
            exact ⟨(dt, ri, r), List.mem_cons_self _ _, (dt, ai, a), hmem,
              rfl, hlr, rfl⟩
          · rcases renameLoop_rows hdr api addedBT rest (ai :: mAcc) row h2
              with ⟨er, her, ea, hea, h3, h4, h5⟩
            exact ⟨er, List.mem_cons_of_mem _ her, ea, hea, h3, h4, h5⟩
      | none =>
          rw [renameLoop_cons_none hdr api addedBT dt ri r rest mAcc hfind]
            at h
          rcases renameLoop_rows hdr api addedBT rest mAcc row h with
            ⟨er, her, ea, hea, h3, h4, h5⟩
          exact ⟨er, List.mem_cons_of_mem _ her, ea, hea, h3, h4, h5⟩

theorem renameLoop_max (hdr api : String)
    (addedBT : List (String × Nat × DJ))
    (hkA : ∀ e ∈ addedBT, e.1 = e.2.2.dataType) :
    ∀ (rem : List (String × Nat × DJ)) (mAcc : List Nat),
      (∀ e ∈ rem, e.1 = e.2.2.dataType) →
      ∀ er ∈ rem,
        (renameLoop hdr api addedBT rem mAcc).2.1.contains er.2.1 = false →
        ∀ ea ∈ addedBT,
          (renameLoop hdr api addedBT rem mAcc).2.2.contains ea.2.1 = false →
          looks_like_rename er.2.2 ea.2.2 = false
  | [], _, _, er, her => absurd her (by simp)
  | (dt, ri, r) :: rest, mAcc, hkR, er, her => by
      intro hnr ea hea hna
      cases hfind : findRename r dt mAcc addedBT with
      | some pr =>
          obtain ⟨ai, a⟩ := pr
          rw [renameLoop_cons_some hdr api addedBT dt ri r rest mAcc ai a
            hfind] at hnr hna
          rcases List.mem_cons.mp her with rfl | h2
          · simp at hnr
          · refine renameLoop_max hdr api addedBT hkA rest (ai :: mAcc)
              (fun q hq => hkR q (List.mem_cons_of_mem _ hq)) er h2 ?_ ea hea
              hna
            simp only [List.contains_cons, Bool.or_eq_false_iff] at hnr
            exact hnr.2
      | none =>
          rw [renameLoop_cons_none hdr api addedBT dt ri r rest mAcc hfind]
            at hnr hna
          rcases List.mem_cons.mp her with rfl | h2
          · show looks_like_rename r ea.2.2 = false
            cases hlr : looks_like_rename r ea.2.2 with
            | false => rfl
            | true =>
                exfalso
                have hnacc : mAcc.contains ea.2.1 = false := by
                  cases hmc : mAcc.contains ea.2.1 with
                  | false => rfl
                  | true =>
                      rw [renameLoop_matchedA_mono hdr api addedBT rest mAcc
                        ea.2.1 hmc] at hna
                      exact Bool.noConfusion hna
                refine findRename_none hfind ea hea ⟨?_, hnacc, hlr⟩
                rw [hkA ea hea]
                have h1 := (looks_like_rename_iff r ea.2.2).mp hlr
                rw [← h1.2.2.2]
                exact (hkR (dt, ri, r) (List.mem_cons_self _ _)).symm
          · exact renameLoop_max hdr api addedBT hkA rest mAcc
              (fun q hq => hkR q (List.mem_cons_of_mem _ hq)) er h2 hnr ea hea
              hna

/-- C7: for the direct Parameter children of a modified Function node,
`diff_direct_param_nodes` first pairs removed and added parameters sharing an
identical non-empty dataType, emitting one rename row per pair, and then
emits one removed row for every unmatched removed parameter and one added
row for every unmatched added parameter; the pairing is maximal: no removed
parameter and added parameter that both remain unmatched share an identical
non-empty dataType.  Every parameter occurs exactly once in its multimap. -/
theorem diff_direct_param_nodes_spec (hdr api : String)
    (removedParams addedParams : List DJ)
    (hR : ∀ p ∈ removedParams, p.ntD = "Parameter")
    (hA : ∀ p ∈ addedParams, p.ntD = "Parameter") :
    diff_direct_param_nodes hdr api removedParams addedParams =
      (paramRenameState hdr api removedParams addedParams).1 ++
      ((buildMM removedParams).filter (fun e =>
          ¬ (paramRenameState hdr api removedParams
              addedParams).2.1.contains e.2.1)).map
        (fun e => mkParamRemovedRow hdr api e.2.2 e.1) ++
      ((buildMM addedParams).filter (fun e =>
          ¬ (paramRenameState hdr api removedParams
              addedParams).2.2.contains e.2.1)).map
        (fun e => mkParamAddedRow hdr api e.2.2 e.1) ∧
    (((buildMM removedParams).map (fun e => e.2.2)).Perm removedParams ∧
      ((buildMM addedParams).map (fun e => e.2.2)).Perm addedParams) ∧
    (∀ row ∈ (paramRenameState hdr api removedParams addedParams).1,
      ∃ r ∈ removedParams, ∃ a ∈ addedParams,
        r.dataType ≠ "" ∧ r.dataType = a.dataType ∧
        row = mkRenameRow hdr api r a r.dataType) ∧
    (∀ er ∈ buildMM removedParams,
      (paramRenameState hdr api removedParams
        addedParams).2.1.contains er.2.1 = false →
      ∀ ea ∈ buildMM addedParams,
        (paramRenameState hdr api removedParams
          addedParams).2.2.contains ea.2.1 = false →
        ¬ (er.2.2.dataType ≠ "" ∧ er.2.2.dataType = ea.2.2.dataType)) := by
  refine ⟨rfl, ⟨buildMM_map_param removedParams,
    buildMM_map_param addedParams⟩, ?_, ?_⟩
  · intro row hrow
    rcases renameLoop_rows hdr api (buildMM addedParams)
        (buildMM removedParams) [] row hrow with
      ⟨er, her, ea, hea, hkey, hlr, hroweq⟩
    rcases buildMM_mem her with ⟨herk, hermem⟩
    rcases buildMM_mem hea with ⟨heak, heamem⟩
    rw [looks_like_rename_iff] at hlr
    refine ⟨er.2.2, hermem, ea.2.2, heamem, hlr.2.2.1, hlr.2.2.2, ?_⟩
    rw [hroweq, herk]
  · intro er her hnr ea hea hna
    have hkA : ∀ e ∈ buildMM addedParams, e.1 = e.2.2.dataType :=
      fun e he => (buildMM_mem he).1
    have hkR : ∀ e ∈ buildMM removedParams, e.1 = e.2.2.dataType :=
      fun e he => (buildMM_mem he).1
    have hfalse := renameLoop_max hdr api (buildMM addedParams) hkA
      (buildMM removedParams) [] hkR er her hnr ea hea hna
    intro hcon
    have htrue : looks_like_rename er.2.2 ea.2.2 = true :=
      (looks_like_rename_iff er.2.2 ea.2.2).mpr
        ⟨hR er.2.2 (buildMM_mem her).2, hA ea.2.2 (buildMM_mem hea).2,
          hcon.1, hcon.2⟩
    rw [htrue] at hfalse
    exact Bool.noConfusion hfalse

/-- Witness for C7 at one removed and one added Parameter of type int. -/
theorem diff_direct_param_nodes_spec_witness :
    (∀ p ∈ [c7pr], DJ.ntD p = "Parameter") ∧
    (∀ p ∈ [c7pa], DJ.ntD p = "Parameter") ∧
    diff_direct_param_nodes "h" "f" [c7pr] [c7pa] =
      [mkRenameRow "h" "f" c7pr c7pa "int"] := by
  refine ⟨by decide, by decide, ?_⟩
  have h := diff_direct_param_nodes_spec "h" "f" [c7pr] [c7pa] (by decide)
    (by decide)
  rw [h.1]
  rfl

/-! ### C5: anti-symmetry of the engine under argument exchange -/

/-- One-to-one correspondence between the records of `diff(A, B)` and those
of `diff(B, A)`: a `removed` record pairs with the identical record tagged
`added` and vice versa, an attribute record pairs with the one whose old
and new values are exchanged, and a `modified` record pairs with a
`modified` record of the same qualified name whose children correspond
recursively (the serialized node type may differ when the matched nodes
have different kinds).  The right-hand list is matched up to position, so
the relation is a perfect matching between the two record lists. -/
inductive CorrL : List DRec → List DRec → Prop where
  | nil : CorrL [] []
  | consRem (qn : Option String) (nt : String) (dt : Option String)
      (ch : List DRec) (l l₁ l₂ : List DRec) :
      CorrL l (l₁ ++ l₂) →
      CorrL (DRec.node qn nt dt (some tagRemoved) ch :: l)
        (l₁ ++ DRec.node qn nt dt (some tagAdded) ch :: l₂)
  | consAdd (qn : Option String) (nt : String) (dt : Option String)
      (ch : List DRec) (l l₁ l₂ : List DRec) :
      CorrL l (l₁ ++ l₂) →
      CorrL (DRec.node qn nt dt (some tagAdded) ch :: l)
        (l₁ ++ DRec.node qn nt dt (some tagRemoved) ch :: l₂)
  | consAttr (f o n : String) (l l₁ l₂ : List DRec) :
      CorrL l (l₁ ++ l₂) →
      CorrL (DRec.attr f o n :: l) (l₁ ++ DRec.attr f n o :: l₂)
  | consMod (qn : Option String) (nt nt' : String) (ch ch' : List DRec)
      (l l₁ l₂ : List DRec) :
      CorrL ch ch' → CorrL l (l₁ ++ l₂) →
      CorrL (DRec.node qn nt none (some tagModified) ch :: l)
        (l₁ ++ DRec.node qn nt' none (some tagModified) ch' :: l₂)

theorem corrL_append {l1 l1' l2 l2' : List DRec} (h1 : CorrL l1 l1')
    (h2 : CorrL l2 l2') : CorrL (l1 ++ l2) (l1' ++ l2') := by
  induction h1 with
  | nil => simpa using h2
  | consRem qn nt dt ch l l₁ l₂ hl ih =>
      rw [List.cons_append, List.append_assoc, List.cons_append]
      exact CorrL.consRem qn nt dt ch (l ++ l2) l₁ (l₂ ++ l2')
        (by rw [← List.append_assoc]; exact ih)
  | consAdd qn nt dt ch l l₁ l₂ hl ih =>
      rw [List.cons_append, List.append_assoc, List.cons_append]
      exact CorrL.consAdd qn nt dt ch (l ++ l2) l₁ (l₂ ++ l2')
        (by rw [← List.append_assoc]; exact ih)
  | consAttr f o n l l₁ l₂ hl ih =>
      rw [List.cons_append, List.append_assoc, List.cons_append]
      exact CorrL.consAttr f o n (l ++ l2) l₁ (l₂ ++ l2')
        (by rw [← List.append_assoc]; exact ih)
  | consMod qn nt nt' ch ch' l l₁ l₂ hch hl ihch ih =>
      rw [List.cons_append, List.append_assoc, List.cons_append]
      exact CorrL.consMod qn nt nt' ch ch' (l ++ l2) l₁ (l₂ ++ l2') hch
        (by rw [← List.append_assoc]; exact ih)

theorem perm_middle_split {α : Type _} {y : α} {l₁ l₂ m : List α}
    (h : (l₁ ++ y :: l₂).Perm m) :
    ∃ m₁ m₂, m = m₁ ++ y :: m₂ ∧ (l₁ ++ l₂).Perm (m₁ ++ m₂) := by
  have hy : y ∈ m := h.mem_iff.mp (by simp)
  rcases List.append_of_mem hy with ⟨m₁, m₂, rfl⟩
  refine ⟨m₁, m₂, rfl, ?_⟩
  have h1 : (y :: (l₁ ++ l₂)).Perm (y :: (m₁ ++ m₂)) :=
    (List.perm_middle.symm.trans h).trans List.perm_middle
  exact h1.cons_inv

theorem corrL_perm_right {l m : List DRec} (h : CorrL l m) :
    ∀ {m' : List DRec}, m.Perm m' → CorrL l m' := by
  induction h with
  | nil =>
      intro m' hp
      rw [← hp.nil_eq]
      exact CorrL.nil
  | consRem qn nt dt ch l l₁ l₂ hl ih =>
      intro m' hp
      rcases perm_middle_split hp with ⟨m₁, m₂, rfl, hp2⟩
      exact CorrL.consRem qn nt dt ch l m₁ m₂ (ih hp2)
  | consAdd qn nt dt ch l l₁ l₂ hl ih =>
      intro m' hp
      rcases perm_middle_split hp with ⟨m₁, m₂, rfl, hp2⟩
      exact CorrL.consAdd qn nt dt ch l m₁ m₂ (ih hp2)
  | consAttr f o n l l₁ l₂ hl ih =>
      intro m' hp
      rcases perm_middle_split hp with ⟨m₁, m₂, rfl, hp2⟩
      exact CorrL.consAttr f o n l m₁ m₂ (ih hp2)
  | consMod qn nt nt' ch ch' l l₁ l₂ hch hl ihch ih =>
      intro m' hp
      rcases perm_middle_split hp with ⟨m₁, m₂, rfl, hp2⟩
      exact CorrL.consMod qn nt nt' ch ch' l m₁ m₂ hch (ih hp2)

theorem corrL_nil_iff {l m : List DRec} (h : CorrL l m) : l = [] ↔ m = [] := by
  cases h with
  | nil => simp
  | consRem qn nt dt ch l l₁ l₂ hl => simp
  | consAdd qn nt dt ch l l₁ l₂ hl => simp
  | consAttr f o n l l₁ l₂ hl => simp
  | consMod qn nt nt' ch ch' l l₁ l₂ hch hl => simp

theorem corrL_flatten {L M : List (List DRec)}
    (h : List.Forall₂ CorrL L M) : CorrL L.flatten M.flatten := by
  induction h with
  | nil => exact CorrL.nil
  | cons hxy _ ih =>
      rw [List.flatten_cons, List.flatten_cons]
      exact corrL_append hxy ih

theorem corrL_removed_added (ns : List APINode) :
    CorrL (ns.map (fun n => getJsonFromNode n tagRemoved))
      (ns.map (fun n => getJsonFromNode n tagAdded)) := by
  induction ns with
  | nil => exact CorrL.nil
  | cons n rest ih =>
      rw [List.map_cons, List.map_cons]
      cases n with
      | mk a cs =>
          rw [getJsonFromNode_eq, getJsonFromNode_eq]
          exact CorrL.consRem _ _ _ _ _ [] _ ih

theorem corrL_added_removed (ns : List APINode) :
    CorrL (ns.map (fun n => getJsonFromNode n tagAdded))
      (ns.map (fun n => getJsonFromNode n tagRemoved)) := by
  induction ns with
  | nil => exact CorrL.nil
  | cons n rest ih =>
      rw [List.map_cons, List.map_cons]
      cases n with
      | mk a cs =>
          rw [getJsonFromNode_eq, getJsonFromNode_eq]
          exact CorrL.consAdd _ _ _ _ _ [] _ ih

theorem attrEntry_antisym (f o n : String) :
    CorrL (attrEntry f o n) (attrEntry f n o) := by
  unfold attrEntry
  by_cases h : o = n
  · rw [if_pos h, if_pos h.symm]
    exact CorrL.nil
  · rw [if_neg h, if_neg (fun hh => h hh.symm)]
    exact CorrL.consAttr f o n [] [] [] CorrL.nil

theorem APINode.diff_antisym (a b : APINode)
    (h : a.kind = NodeKind.Function ↔ b.kind = NodeKind.Function) :
    CorrL (a.diff b) (b.diff a) := by
  unfold APINode.diff
  by_cases ha : a.kind = NodeKind.Function
  · rw [if_pos ha, if_pos (h.mp ha)]
    exact corrL_append (corrL_append (attrEntry_antisym _ _ _)
      (attrEntry_antisym _ _ _)) (attrEntry_antisym _ _ _)
  · rw [if_neg ha, if_neg (fun hb => ha (h.mpr hb))]
    refine corrL_append ?_ (attrEntry_antisym _ _ _)
    refine corrL_append ?_ (attrEntry_antisym _ _ _)
    refine corrL_append ?_ (attrEntry_antisym _ _ _)
    refine corrL_append ?_ (attrEntry_antisym _ _ _)
    refine corrL_append ?_ (attrEntry_antisym _ _ _)
    refine corrL_append ?_ (attrEntry_antisym _ _ _)
    refine corrL_append ?_ (attrEntry_antisym _ _ _)
    refine corrL_append ?_ (attrEntry_antisym _ _ _)
    refine corrL_append ?_ (attrEntry_antisym _ _ _)
    refine corrL_append ?_ (attrEntry_antisym _ _ _)
    refine corrL_append ?_ (attrEntry_antisym _ _ _)
    refine corrL_append ?_ (attrEntry_antisym _ _ _)
    refine corrL_append ?_ (attrEntry_antisym _ _ _)
    exact attrEntry_antisym _ _ _

mutual

def APINode.decEq : (a b : APINode) → Decidable (a = b)
  | .mk a1 c1, .mk a2 c2 =>
      have hc : Decidable (c1 = c2) := APINode.decEqList c1 c2
      decidable_of_iff (a1 = a2 ∧ c1 = c2) (by simp [APINode.mk.injEq])

def APINode.decEqList : (l1 l2 : List APINode) → Decidable (l1 = l2)
  | [], [] => isTrue rfl
  | [], _ :: _ => isFalse (by simp)
  | _ :: _, [] => isFalse (by simp)
  | x :: xs, y :: ys =>
      match APINode.decEq x y, APINode.decEqList xs ys with
      | isTrue h1, isTrue h2 => isTrue (by rw [h1, h2])
      | isFalse h1, _ => isFalse (by simp [h1])
      | _, isFalse h2 => isFalse (by simp [h2])

end

instance : DecidableEq APINode := APINode.decEq

theorem intersectionGo_cons_some {f : KeyFn} {x : APINode}
    {xs b : List APINode} {y : APINode} {b1 : List APINode}
    (hfe : findErase f (f x) b = some (y, b1)) :
    intersectionGo f (x :: xs) b = (x, y) :: intersectionGo f xs b1 := by
  simp only [intersectionGo, hfe]

theorem intersectionGo_cons_none {f : KeyFn} {x : APINode}
    {xs b : List APINode} (hfe : findErase f (f x) b = none) :
    intersectionGo f (x :: xs) b = intersectionGo f xs b := by
  simp only [intersectionGo, hfe]

theorem findErase_key {f : KeyFn} {k : String} :
    ∀ {l : List APINode} {y : APINode} {rest : List APINode},
      findErase f k l = some (y, rest) → f y = k
  | [], y, rest, h => absurd h (by simp [findErase])
  | x :: xs, y, rest, h => by
      unfold findErase at h
      split at h
      · next hx =>
          have he := Option.some.inj h
          have hy : x = y := congrArg Prod.fst he
          rw [← hy]
          exact hx
      · next hx =>
          cases hfe : findErase f k xs with
          | none => rw [hfe] at h; exact absurd h (by simp)
          | some p =>
              rw [hfe] at h
              have he := Option.some.inj h
              have hy : p.1 = y := congrArg Prod.fst he
              rw [← hy]
              exact findErase_key (by rw [hfe])

theorem findErase_cons_ne {f : KeyFn} {k : String} {x : APINode}
    (xs : List APINode) (hx : ¬ f x = k) :
    findErase f k (x :: xs) =
      match findErase f k xs with
      | some (y, rest) => some (y, x :: rest)
      | none => none := by
  simp only [findErase]
  rw [if_neg hx]

theorem findErase_none_key {f : KeyFn} {k : String} :
    ∀ {l : List APINode}, findErase f k l = none → ∀ z ∈ l, ¬ f z = k
  | [], _, z, hz => absurd hz (by simp)
  | x :: xs, h, z, hz => by
      unfold findErase at h
      split at h
      · exact absurd h (by simp)
      · next hx =>
          cases hfe : findErase f k xs with
          | some p => rw [hfe] at h; exact absurd h (by simp)
          | none =>
              rcases List.mem_cons.mp hz with rfl | h2
              · exact hx
              · exact findErase_none_key hfe z h2

theorem intersectionGo_nil_right {f : KeyFn} :
    ∀ b : List APINode, intersectionGo f b [] = []
  | [] => rfl
  | z :: zs => by
      rw [intersectionGo_cons_none (by simp [findErase])]
      exact intersectionGo_nil_right zs

/-- A second list headed by an element whose key no first-list element
carries pairs exactly as without that head. -/
theorem intersectionGo_skip {f : KeyFn} {x : APINode} :
    ∀ (b : List APINode) (xs : List APINode),
      (∀ z ∈ b, ¬ f z = f x) →
      intersectionGo f b (x :: xs) = intersectionGo f b xs
  | [], xs, _ => rfl
  | z :: zs, xs, h => by
      have hz : ¬ f x = f z := fun hh => h z (List.mem_cons_self _ _) hh.symm
      have hcne := findErase_cons_ne (f := f) (k := f z) xs hz
      cases hfe : findErase f (f z) xs with
      | some p =>
          obtain ⟨w, xs1⟩ := p
          have h1 : findErase f (f z) (x :: xs) = some (w, x :: xs1) := by
            rw [hcne, hfe]
          rw [intersectionGo_cons_some h1, intersectionGo_cons_some hfe]
          rw [intersectionGo_skip zs xs1
            (fun q hq => h q (List.mem_cons_of_mem _ hq))]
      | none =>
          have h1 : findErase f (f z) (x :: xs) = none := by rw [hcne, hfe]
          rw [intersectionGo_cons_none h1, intersectionGo_cons_none hfe]
          exact intersectionGo_skip zs xs
            (fun q hq => h q (List.mem_cons_of_mem _ hq))

/-- Consuming the first key-match `y` of `b` against a head `x` of the
second list: the pairing of `b` against `x :: xs` is the pairing of the
remainder of `b` against `xs` with the pair `(y, x)` inserted where `y` is
processed. -/
theorem intersectionGo_insert {f : KeyFn} {x : APINode} :
    ∀ {b : List APINode} {y : APINode} {b1 : List APINode}
      (xs : List APINode),
      findErase f (f x) b = some (y, b1) →
      ∃ pre suf, intersectionGo f b (x :: xs) = pre ++ (y, x) :: suf ∧
        intersectionGo f b1 xs = pre ++ suf
  | [], y, b1, xs, h => absurd h (by simp [findErase])
  | z :: zs, y, b1, xs, h => by
      by_cases hz : f z = f x
      · have hzz : findErase f (f x) (z :: zs) = some (z, zs) := by
          simp only [findErase]
          rw [if_pos hz]
        rw [hzz] at h
        have he := Option.some.inj h
        have hy : z = y := congrArg Prod.fst he
        have hb : zs = b1 := congrArg Prod.snd he
        have hq : findErase f (f z) (x :: xs) = some (x, xs) := by
          simp only [findErase]
          rw [if_pos hz.symm]
        refine ⟨[], intersectionGo f b1 xs, ?_, rfl⟩
        rw [intersectionGo_cons_some hq, hy, hb]
        rfl
      · have hcne := findErase_cons_ne (f := f) (k := f x) zs hz
        rw [hcne] at h
        cases hfe : findErase f (f x) zs with
        | none => rw [hfe] at h; exact absurd h (by simp)
        | some p =>
            obtain ⟨y1, rest⟩ := p
            rw [hfe] at h
            have he := Option.some.inj h
            have hy : y1 = y := congrArg Prod.fst he
            have hb : z :: rest = b1 := congrArg Prod.snd he
            subst hy
            subst hb
            have hxz : ¬ f x = f z := fun hh => hz hh.symm
            have hcnz := findErase_cons_ne (f := f) (k := f z) xs hxz
            cases hfz : findErase f (f z) xs with
            | some q =>
                obtain ⟨w, xs1⟩ := q
                rcases intersectionGo_insert xs1 hfe with ⟨pre, suf, h1, h2⟩
                have hq1 : findErase f (f z) (x :: xs) = some (w, x :: xs1) := by
                  rw [hcnz, hfz]
                refine ⟨(z, w) :: pre, suf, ?_, ?_⟩
                · rw [intersectionGo_cons_some hq1, h1]
                  rfl
                · rw [intersectionGo_cons_some hfz, h2]
                  rfl
            | none =>
                rcases intersectionGo_insert xs hfe with ⟨pre, suf, h1, h2⟩
                have hq1 : findErase f (f z) (x :: xs) = none := by
                  rw [hcnz, hfz]
                refine ⟨pre, suf, ?_, ?_⟩
                · rw [intersectionGo_cons_none hq1]
                  exact h1
                · rw [intersectionGo_cons_none hfz]
                  exact h2

theorem intersectionGo_key {f : KeyFn} :
    ∀ {a b : List APINode} {p : APINode × APINode},
      p ∈ intersectionGo f a b → f p.1 = f p.2
  | [], b, p, h => absurd h (by simp [intersectionGo])
  | x :: xs, b, p, h => by
      cases hfe : findErase f (f x) b with
      | some q =>
          have hq : findErase f (f x) b = some (q.1, q.2) := by rw [hfe]
          rw [intersectionGo_cons_some hq] at h
          rcases List.mem_cons.mp h with rfl | h2
          · exact (findErase_key (by rw [hfe])).symm
          · exact intersectionGo_key h2
      | none =>
          rw [intersectionGo_cons_none hfe] at h
          exact intersectionGo_key h

/-- The greedy by-key pairing is symmetric: exchanging the argument lists
produces the same pairs, each swapped, up to order. -/
theorem intersection_swap_perm (f : KeyFn) :
    ∀ (a b : List APINode),
      ((intersectionGo f a b).map Prod.swap).Perm (intersectionGo f b a)
  | [], b => by
      rw [intersectionGo_nil_right b]
      simp [intersectionGo]
  | x :: xs, b => by
      cases hfe : findErase f (f x) b with
      | some p =>
          obtain ⟨y, b1⟩ := p
          rw [intersectionGo_cons_some hfe]
          rcases intersectionGo_insert xs hfe with ⟨pre, suf, h1, h2⟩
          rw [h1, List.map_cons]
          have ih := intersection_swap_perm f xs b1
          rw [h2] at ih
          exact (ih.cons (y, x)).trans List.perm_middle.symm
      | none =>
          rw [intersectionGo_cons_none hfe]
          rw [intersectionGo_skip b xs (findErase_none_key hfe)]
          exact intersection_swap_perm f xs b

theorem forall2_map_map {α β γ : Type _} (R : β → γ → Prop) (f : α → β)
    (g : α → γ) : ∀ {l : List α}, (∀ x ∈ l, R (f x) (g x)) →
      List.Forall₂ R (l.map f) (l.map g)
  | [], _ => List.Forall₂.nil
  | x :: xs, h => by
      rw [List.map_cons, List.map_cons]
      exact List.Forall₂.cons (h x (List.mem_cons_self _ _))
        (forall2_map_map R f g (fun q hq => h q (List.mem_cons_of_mem _ hq)))

/-- Recursive kind coherence of a matched pair of nodes: both agree on
being a `Function` (the branch selector of `APINode::diff`), and every
common child pair the engine matches below them agrees recursively. -/
def funcKindCoherent (a b : APINode) : Bool :=
  decide (a.kind = NodeKind.Function ↔ b.kind = NodeKind.Function) &&
  (if hasChildrenB a && hasChildrenB b then
    (intersection a.children b.children byQualifiedName).attach.all
      (fun p => funcKindCoherent p.1.1 p.1.2)
  else true)
termination_by sizeOf a + sizeOf b
decreasing_by
  have h := intersection_mem p.2
  have h1 := APINode.sizeOf_child_lt' h.1
  have h2 := APINode.sizeOf_child_lt' h.2
  omega

/-- The unfolding equation of `funcKindCoherent`. -/
theorem funcKindCoherent_eq (a b : APINode) :
    funcKindCoherent a b =
      (decide (a.kind = NodeKind.Function ↔ b.kind = NodeKind.Function) &&
      (if hasChildrenB a && hasChildrenB b then
        (intersection a.children b.children byQualifiedName).all
          (fun p => funcKindCoherent p.1 p.2)
      else true)) := by
  have hrw : ∀ l : List (APINode × APINode),
      (l.attach.all (fun p => funcKindCoherent p.1.1 p.1.2)) =
        l.all (fun p => funcKindCoherent p.1 p.2) :=
    fun l => attach_all_fst l (fun q => funcKindCoherent q.1 q.2)
  rw [funcKindCoherent]
  simp only [hrw]

theorem funcKindCoherent_kind {a b : APINode}
    (h : funcKindCoherent a b = true) :
    a.kind = NodeKind.Function ↔ b.kind = NodeKind.Function := by
  rw [funcKindCoherent_eq] at h
  rw [Bool.and_eq_true] at h
  exact of_decide_eq_true h.1

theorem funcKindCoherent_pair {a b : APINode}
    (h : funcKindCoherent a b = true) :
    ∀ p ∈ intersection a.children b.children byQualifiedName,
      funcKindCoherent p.1 p.2 = true := by
  rw [funcKindCoherent_eq] at h
  rw [Bool.and_eq_true] at h
  have h2 := h.2
  intro p hp
  by_cases hc : (hasChildrenB a && hasChildrenB b) = true
  · rw [if_pos hc] at h2
    exact List.all_eq_true.mp h2 p hp
  · exfalso
    apply hc
    have hm := intersection_mem hp
    have hne1 : a.children ≠ [] := List.ne_nil_of_mem hm.1
    have hne2 : b.children ≠ [] := List.ne_nil_of_mem hm.2
    simp [hasChildrenB, List.isEmpty_iff, hne1, hne2]

/-- Anti-symmetry of the per-pair recursion: exchanging the two nodes
produces a record list in one-to-one correspondence, with removed and
added exchanged and attribute values inverted, provided the pair carries
the same qualified name and is kind-coherent.  The tree parameters are
irrelevant (the source carries but never reads them). -/
theorem diffNodes_antisym (a b : APINode) (t1 t2 t1' t2' : NormalizedTree)
    (hqn : a.qualifiedName = b.qualifiedName)
    (hkc : funcKindCoherent a b = true) :
    CorrL (diffNodes a b t1 t2) (diffNodes b a t1' t2') := by
  rw [diffNodes_eq, diffNodes_eq]
  have hcomm : (hasChildrenB b && hasChildrenB a) =
      (hasChildrenB a && hasChildrenB b) := Bool.and_comm _ _
  by_cases hc : (hasChildrenB a && hasChildrenB b) = true
  · have hcT : (hasChildrenB b && hasChildrenB a) = true := by
      rw [hcomm]
      exact hc
    rw [if_pos hc, if_pos hcT]
    have hcd : CorrL (childrenDiffOf a b t1 t2) (childrenDiffOf b a t1' t2') := by
      have hpair : ∀ p ∈ intersection a.children b.children byQualifiedName,
          CorrL (diffNodes p.1 p.2 t1 t2) (diffNodes p.2 p.1 t1' t2') := by
        intro p hp
        have hq : p.1.qualifiedName = p.2.qualifiedName :=
          intersectionGo_key hp
        exact diffNodes_antisym p.1 p.2 t1 t2 t1' t2' hq
          (funcKindCoherent_pair hkc p hp)
      have hci : CorrL
          (((intersection a.children b.children byQualifiedName).map
            (fun p => diffNodes p.1 p.2 t1 t2)).flatten)
          (((intersection a.children b.children byQualifiedName).map
            (fun p => diffNodes p.2 p.1 t1' t2')).flatten) :=
        corrL_flatten (forall2_map_map CorrL
          (fun (p : APINode × APINode) => diffNodes p.1 p.2 t1 t2)
          (fun (p : APINode × APINode) => diffNodes p.2 p.1 t1' t2') hpair)
      have hM : CorrL (childrenDiffOf a b t1 t2)
          ((((difference a.children b.children byQualifiedName).map
              (fun n => getJsonFromNode n tagAdded) ++
            (difference b.children a.children byQualifiedName).map
              (fun n => getJsonFromNode n tagRemoved)) ++
            ((intersection a.children b.children byQualifiedName).map
              (fun p => diffNodes p.2 p.1 t1' t2')).flatten) ++
            b.diff a) := by
        unfold childrenDiffOf
        exact corrL_append (corrL_append (corrL_append
          (corrL_removed_added _) (corrL_added_removed _)) hci)
          (APINode.diff_antisym a b (funcKindCoherent_kind hkc))
      have hmm2 : ((intersection a.children b.children byQualifiedName).map
          (fun (p : APINode × APINode) => diffNodes p.2 p.1 t1' t2')) =
          (((intersection a.children b.children byQualifiedName).map
            Prod.swap).map
            (fun (p : APINode × APINode) => diffNodes p.1 p.2 t1' t2')) := by
        rw [List.map_map]
        rfl
      have hperm : ((((difference a.children b.children byQualifiedName).map
            (fun n => getJsonFromNode n tagAdded) ++
          (difference b.children a.children byQualifiedName).map
            (fun n => getJsonFromNode n tagRemoved)) ++
          ((intersection a.children b.children byQualifiedName).map
            (fun p => diffNodes p.2 p.1 t1' t2')).flatten) ++
          b.diff a).Perm (childrenDiffOf b a t1' t2') := by
        unfold childrenDiffOf
        refine List.Perm.append ?_ (List.Perm.refl _)
        refine List.Perm.append (List.perm_append_comm) ?_
        rw [hmm2]
        exact (((intersection_swap_perm byQualifiedName a.children
          b.children).map
          (fun (p : APINode × APINode) => diffNodes p.1 p.2 t1' t2')).flatten)
      exact corrL_perm_right hM hperm
    by_cases he : (childrenDiffOf a b t1 t2).isEmpty = true
    · have he2 : (childrenDiffOf b a t1' t2').isEmpty = true := by
        rw [List.isEmpty_iff] at he ⊢
        exact (corrL_nil_iff hcd).mp he
      rw [if_pos he, if_pos he2]
      exact CorrL.nil
    · have he2 : ¬ (childrenDiffOf b a t1' t2').isEmpty = true := by
        rw [List.isEmpty_iff] at he ⊢
        intro hh
        exact he ((corrL_nil_iff hcd).mpr hh)
      rw [if_neg he, if_neg he2]
      rw [hqn]
      exact CorrL.consMod (some b.qualifiedName) (kindStr a.kind)
        (kindStr b.kind) (childrenDiffOf a b t1 t2)
        (childrenDiffOf b a t1' t2') [] [] [] hcd CorrL.nil
  · have hcF : ¬ (hasChildrenB b && hasChildrenB a) = true := by
      rw [hcomm]
      exact hc
    rw [if_neg hc, if_neg hcF]
    exact APINode.diff_antisym a b (funcKindCoherent_kind hkc)
termination_by sizeOf a + sizeOf b
decreasing_by
  have h := intersection_mem hp
  have h1 := APINode.sizeOf_child_lt' h.1
  have h2 := APINode.sizeOf_child_lt' h.2
  omega

/-- The body of the first loop of `diffTrees` over the base roots. -/
def diffTreesL1 (t1 t2 : NormalizedTree) (ex : List String) (r : APINode) :
    List DRec :=
  if ex.contains r.qualifiedName then []
  else
    match treeLookup t2 r.qualifiedName with
    | none => [getJsonFromNode r tagRemoved]
    | some r2 => diffNodes r r2 t1 t2

/-- The body of the second loop of `diffTrees` (tag `added` in the source;
parametrized by the tag to express both orientations). -/
def diffTreesL2 (t : NormalizedTree) (ex : List String) (tg : String)
    (r : APINode) : List DRec :=
  if ex.contains r.qualifiedName then []
  else
    match treeLookup t r.qualifiedName with
    | none => [getJsonFromNode r tg]
    | some _ => []

/-- The hit contribution of a base root: the per-pair diff with the root
first. -/
def hitFwd (t1 t2 : NormalizedTree) (ex : List String) (r : APINode) :
    List DRec :=
  if ex.contains r.qualifiedName then []
  else
    match treeLookup t2 r.qualifiedName with
    | none => []
    | some r2 => diffNodes r r2 t1 t2

/-- The hit contribution of a base root with the looked-up partner first. -/
def hitRev (ta tb tl : NormalizedTree) (ex : List String) (r : APINode) :
    List DRec :=
  if ex.contains r.qualifiedName then []
  else
    match treeLookup tl r.qualifiedName with
    | none => []
    | some r2 => diffNodes r2 r ta tb

theorem diffTrees_decomp (roots1 roots2 : List APINode)
    (t1 t2 : NormalizedTree) (e1 e2 : List String) :
    diffTrees roots1 roots2 t1 t2 e1 e2 =
      roots1.flatMap (diffTreesL1 t1 t2 e1) ++
      roots2.flatMap (diffTreesL2 t1 e2 tagAdded) := rfl

theorem diffTreesL1_split (t1 t2 : NormalizedTree) (ex : List String)
    (r : APINode) :
    diffTreesL1 t1 t2 ex r =
      diffTreesL2 t2 ex tagRemoved r ++ hitFwd t1 t2 ex r := by
  unfold diffTreesL1 diffTreesL2 hitFwd
  by_cases hex : ex.contains r.qualifiedName = true
  · rw [if_pos hex, if_pos hex, if_pos hex]
    rfl
  · rw [if_neg hex, if_neg hex, if_neg hex]
    cases treeLookup t2 r.qualifiedName <;> simp

theorem flatMap_append_perm {α β : Type _} (f g : α → List β) :
    ∀ l : List α,
      (l.flatMap (fun x => f x ++ g x)).Perm (l.flatMap f ++ l.flatMap g)
  | [] => by simp
  | x :: xs => by
      rw [List.flatMap_cons, List.flatMap_cons, List.flatMap_cons]
      rw [List.append_assoc (f x) (xs.flatMap f)]
      rw [List.append_assoc (f x) (g x)]
      refine List.Perm.append_left (f x) ?_
      refine (List.Perm.append_left (g x) (flatMap_append_perm f g xs)).trans ?_
      have h : ((g x ++ xs.flatMap f) ++ xs.flatMap g).Perm
          ((xs.flatMap f ++ g x) ++ xs.flatMap g) :=
        List.Perm.append_right _ List.perm_append_comm
      simpa [List.append_assoc] using h

theorem flatMap_filter_eq {α β : Type _} (p : α → Bool) (f : α → List β) :
    ∀ l : List α, (∀ x ∈ l, p x = false → f x = []) →
      l.flatMap f = (l.filter p).flatMap f
  | [], _ => rfl
  | x :: xs, h => by
      rw [List.flatMap_cons, List.filter_cons]
      cases hp : p x with
      | true =>
          rw [if_pos rfl, List.flatMap_cons,
            flatMap_filter_eq p f xs (fun q hq => h q (List.mem_cons_of_mem _ hq))]
      | false =>
          rw [if_neg (by simp), h x (List.mem_cons_self _ _) hp]
          rw [List.nil_append]
          exact flatMap_filter_eq p f xs
            (fun q hq => h q (List.mem_cons_of_mem _ hq))

theorem flatMap_congr_mem {α β : Type _} {f g : α → List β} {l : List α}
    (h : ∀ x ∈ l, f x = g x) : l.flatMap f = l.flatMap g := by
  rw [List.flatMap_def, List.flatMap_def, List.map_congr_left h]

theorem corrL_flatMap_same {f g : APINode → List DRec} :
    ∀ {l : List APINode}, (∀ x ∈ l, CorrL (f x) (g x)) →
      CorrL (l.flatMap f) (l.flatMap g)
  | [], _ => CorrL.nil
  | x :: xs, h => by
      rw [List.flatMap_cons, List.flatMap_cons]
      exact corrL_append (h x (List.mem_cons_self _ _))
        (corrL_flatMap_same (fun q hq => h q (List.mem_cons_of_mem _ hq)))

/-- The bijection between base-root hits and head-root hits: under the
context coherence hypotheses, the reversed per-pair diffs contributed by
the base roots are a permutation of the forward per-pair diffs the
exchanged call contributes for the head roots. -/
theorem hit_perm (roots1 roots2 : List APINode) (t1 t2 : NormalizedTree)
    (ex : List String)
    (h1self : ∀ r ∈ roots1, treeLookup t1 r.qualifiedName = some r)
    (h2self : ∀ r ∈ roots2, treeLookup t2 r.qualifiedName = some r)
    (h12 : ∀ r ∈ roots1, ∀ r2, treeLookup t2 r.qualifiedName = some r2 →
      r2 ∈ roots2 ∧ r2.qualifiedName = r.qualifiedName)
    (h21 : ∀ r ∈ roots2, ∀ r1, treeLookup t1 r.qualifiedName = some r1 →
      r1 ∈ roots1 ∧ r1.qualifiedName = r.qualifiedName)
    (hnd1 : (roots1.map (fun r => r.qualifiedName)).Nodup)
    (hnd2 : (roots2.map (fun r => r.qualifiedName)).Nodup) :
    (roots1.flatMap (hitRev t2 t1 t2 ex)).Perm
      (roots2.flatMap (hitFwd t2 t1 ex)) := by
  have h1z : ∀ r ∈ roots1,
      (!ex.contains r.qualifiedName &&
        (treeLookup t2 r.qualifiedName).isSome) = false →
      hitRev t2 t1 t2 ex r = [] := by
    intro r _ hp
    unfold hitRev
    rw [Bool.and_eq_false_iff] at hp
    rcases hp with hp | hp
    · rw [if_pos (by simpa using hp)]
    · have hnone : treeLookup t2 r.qualifiedName = none := by
        cases hopt : treeLookup t2 r.qualifiedName with
        | none => rfl
        | some v => rw [hopt] at hp; exact absurd hp (by simp)
      split
      · rfl
      · rw [hnone]
  have h2z : ∀ r ∈ roots2,
      (!ex.contains r.qualifiedName &&
        (treeLookup t1 r.qualifiedName).isSome) = false →
      hitFwd t2 t1 ex r = [] := by
    intro r _ hp
    unfold hitFwd
    rw [Bool.and_eq_false_iff] at hp
    rcases hp with hp | hp
    · rw [if_pos (by simpa using hp)]
    · have hnone : treeLookup t1 r.qualifiedName = none := by
        cases hopt : treeLookup t1 r.qualifiedName with
        | none => rfl
        | some v => rw [hopt] at hp; exact absurd hp (by simp)
      split
      · rfl
      · rw [hnone]
  rw [flatMap_filter_eq (fun r => !ex.contains r.qualifiedName &&
    (treeLookup t2 r.qualifiedName).isSome) (hitRev t2 t1 t2 ex) roots1 h1z]
  rw [flatMap_filter_eq (fun r => !ex.contains r.qualifiedName &&
    (treeLookup t1 r.qualifiedName).isSome) (hitFwd t2 t1 ex) roots2 h2z]
  have hmemfilter : ∀ r, r ∈ roots1.filter (fun r =>
      !ex.contains r.qualifiedName &&
        (treeLookup t2 r.qualifiedName).isSome) →
      r ∈ roots1 ∧ ex.contains r.qualifiedName = false ∧
        ∃ r2, treeLookup t2 r.qualifiedName = some r2 := by
    intro r hr
    rcases List.mem_filter.mp hr with ⟨hr1, hr2⟩
    rw [Bool.and_eq_true] at hr2
    exact ⟨hr1, by simpa using hr2.1, Option.isSome_iff_exists.mp hr2.2⟩
  have hmemfilter2 : ∀ r, r ∈ roots2.filter (fun r =>
      !ex.contains r.qualifiedName &&
        (treeLookup t1 r.qualifiedName).isSome) →
      r ∈ roots2 ∧ ex.contains r.qualifiedName = false ∧
        ∃ r1, treeLookup t1 r.qualifiedName = some r1 := by
    intro r hr
    rcases List.mem_filter.mp hr with ⟨hr1, hr2⟩
    rw [Bool.and_eq_true] at hr2
    exact ⟨hr1, by simpa using hr2.1, Option.isSome_iff_exists.mp hr2.2⟩
  have hqnmap : ∀ r ∈ roots1, ∀ r2,
      treeLookup t2 r.qualifiedName = some r2 →
      ((treeLookup t2 r.qualifiedName).getD r).qualifiedName =
        r.qualifiedName := by
    intro r hr r2 hl
    rw [hl, Option.getD_some]
    exact (h12 r hr r2 hl).2
  have hperm : ((roots1.filter (fun r => !ex.contains r.qualifiedName &&
      (treeLookup t2 r.qualifiedName).isSome)).map
        (fun r => (treeLookup t2 r.qualifiedName).getD r)).Perm
      (roots2.filter (fun r => !ex.contains r.qualifiedName &&
        (treeLookup t1 r.qualifiedName).isSome)) := by
    have hndA : ((roots1.filter (fun r => !ex.contains r.qualifiedName &&
        (treeLookup t2 r.qualifiedName).isSome)).map
          (fun r => (treeLookup t2 r.qualifiedName).getD r)).Nodup := by
      refine List.Nodup.map_on ?_
        (List.Nodup.filter _ (List.Nodup.of_map _ hnd1))
      intro x hx y hy hxy
      rcases hmemfilter x hx with ⟨hx1, _, rx, hlx⟩
      rcases hmemfilter y hy with ⟨hy1, _, ry, hly⟩
      have hqx := hqnmap x hx1 rx hlx
      have hqy := hqnmap y hy1 ry hly
      have : x.qualifiedName = y.qualifiedName := by
        rw [← hqx, ← hqy, hxy]
      exact List.inj_on_of_nodup_map hnd1 hx1 hy1 this
    have hndB : (roots2.filter (fun r => !ex.contains r.qualifiedName &&
        (treeLookup t1 r.qualifiedName).isSome)).Nodup :=
      List.Nodup.filter _ (List.Nodup.of_map _ hnd2)
    rw [List.perm_ext_iff_of_nodup hndA hndB]
    intro x
    constructor
    · intro hx
      rcases List.mem_map.mp hx with ⟨r, hr, hrx⟩
      rcases hmemfilter r hr with ⟨hr1, hex, r2, hl⟩
      have hx2 : x = r2 := by
        rw [← hrx, hl, Option.getD_some]
      subst hx2
      rcases h12 r hr1 x hl with ⟨hr2mem, hq2⟩
      rw [List.mem_filter]
      refine ⟨hr2mem, ?_⟩
      rw [Bool.and_eq_true]
      constructor
      · rw [hq2]
        simpa using hex
      · rw [hq2, h1self r hr1]
        rfl
    · intro hx
      rcases hmemfilter2 x hx with ⟨hx1, hex, r1, hl1⟩
      rcases h21 x hx1 r1 hl1 with ⟨hr1mem, hq1⟩
      rw [List.mem_map]
      refine ⟨r1, ?_, ?_⟩
      · rw [List.mem_filter]
        refine ⟨hr1mem, ?_⟩
        rw [Bool.and_eq_true]
        constructor
        · rw [hq1]
          simpa using hex
        · rw [hq1, h2self x hx1]
          rfl
      · rw [hq1, h2self x hx1, Option.getD_some]
  have hpoint : ∀ r ∈ roots1.filter (fun r =>
      !ex.contains r.qualifiedName &&
        (treeLookup t2 r.qualifiedName).isSome),
      hitFwd t2 t1 ex ((treeLookup t2 r.qualifiedName).getD r) =
        hitRev t2 t1 t2 ex r := by
    intro r hr
    rcases hmemfilter r hr with ⟨hr1, hex, r2, hl⟩
    rcases h12 r hr1 r2 hl with ⟨_, hq2⟩
    rw [hl, Option.getD_some]
    unfold hitFwd hitRev
    rw [if_neg (by rw [hq2]; simpa using hex), if_neg (by simpa using hex)]
    rw [hq2, h1self r hr1, hl]
  have e1 : (roots1.filter (fun r => !ex.contains r.qualifiedName &&
        (treeLookup t2 r.qualifiedName).isSome)).flatMap
          (hitRev t2 t1 t2 ex) =
      ((roots1.filter (fun r => !ex.contains r.qualifiedName &&
          (treeLookup t2 r.qualifiedName).isSome)).map
          (fun r => (treeLookup t2 r.qualifiedName).getD r)).flatMap
          (hitFwd t2 t1 ex) := by
    rw [List.flatMap_map]
    exact (flatMap_congr_mem hpoint).symm
  rw [e1, List.flatMap_def, List.flatMap_def]
  exact (hperm.map _).flatten

/-- Counterexample context: struct `S` whose field `x` changes type. -/
def c5xA : APINode :=
  .mk { qualifiedName := "S::x", kind := .Field, dataType := "int" } []

def c5xB : APINode :=
  .mk { qualifiedName := "S::x", kind := .Field, dataType := "long" } []

def c5SA : APINode := .mk { qualifiedName := "S", kind := .Struct } [c5xA]

def c5SB : APINode := .mk { qualifiedName := "S", kind := .Struct } [c5xB]

/-- Counterexample to C5 as stated: with different exclusion sets in the
two contexts (here: `S` excluded only in the second context), the fully
exchanged call produces no record at all, while the forward call produces
a `modified` record for `S` — the `modified` record has no counterpart, so
no tag-swapping one-to-one correspondence exists.  Exclusion is consulted
for the first loop roots by the first set and for the second loop roots by
the second set, so a `modified` pair is filtered by different sets in the
two directions. -/
theorem diffTrees_antisym_counterexample :
    diffTrees [c5SA] [c5SB] [("S", c5SA)] [("S", c5SB)] [] ["S"] =
      [DRec.node (some "S") "Struct" none (some tagModified)
        [DRec.attr "dataType" "int" "long"]] ∧
    diffTrees [c5SB] [c5SA] [("S", c5SB)] [("S", c5SA)] ["S"] [] = [] := by
  constructor
  · have hfield : ∀ t1 t2 : NormalizedTree, diffNodes c5xA c5xB t1 t2 =
        [DRec.attr "dataType" "int" "long"] := by
      intro t1 t2
      rw [diffNodes_eq]
      simp [c5xA, c5xB, hasChildrenB, APINode.children, APINode.diff,
        APINode.kind, APINode.attrs, attrEntry, kindStr, accessStr,
        storageStr, constStr, virtStr, boolStr]
    have hcd : childrenDiffOf c5SA c5SB [("S", c5SA)] [("S", c5SB)] =
        [DRec.attr "dataType" "int" "long"] := by
      unfold childrenDiffOf
      rw [show difference c5SA.children c5SB.children byQualifiedName = []
        from rfl]
      rw [show difference c5SB.children c5SA.children byQualifiedName = []
        from rfl]
      rw [show intersection c5SA.children c5SB.children byQualifiedName =
        [(c5xA, c5xB)] from rfl]
      rw [show APINode.diff c5SA c5SB = [] from rfl]
      simp only [List.map_nil, List.nil_append, List.append_nil,
        List.map_cons, List.flatten_cons, List.flatten_nil]
      rw [hfield]
    have e1 : ([] : List String).contains c5SA.qualifiedName = false := rfl
    have e2 : (["S"].contains c5SB.qualifiedName) = true := rfl
    have l1 : treeLookup [("S", c5SB)] c5SA.qualifiedName = some c5SB := rfl
    unfold diffTrees
    simp only [List.flatMap_cons, List.flatMap_nil, e1, e2, l1,
      Bool.false_eq_true, if_false, if_true, List.append_nil]
    rw [diffNodes_eq]
    rw [if_pos (show (hasChildrenB c5SA && hasChildrenB c5SB) = true
      from rfl)]
    rw [hcd]
    rw [if_neg (show ¬ (([DRec.attr "dataType" "int" "long"] :
      List DRec).isEmpty = true) from by simp)]
    rfl
  · have e1 : (["S"].contains c5SB.qualifiedName) = true := rfl
    have e2 : ([] : List String).contains c5SA.qualifiedName = false := rfl
    have l2 : treeLookup [("S", c5SB)] c5SA.qualifiedName = some c5SB := rfl
    unfold diffTrees
    simp only [List.flatMap_cons, List.flatMap_nil, e1, e2, l2,
      Bool.false_eq_true, if_false, if_true, List.append_nil]

/-- C5 amended: with the same exclusion set on both sides and a coherent
pair of contexts — each root bound to itself in its own tree map, a hit in
the other tree map always naming a root of the other context with the same
qualified name, no two roots sharing a qualified name, and matched roots
agreeing recursively on Function-ness — the records of `diffTrees(A, B)`
and of `diffTrees(B, A)` are in one-to-one correspondence: a `removed`
record pairs with the identical record tagged `added` and vice versa, an
attribute entry pairs with the entry whose old and new values are
exchanged, and a `modified` record pairs with a `modified` record of the
same qualified name whose children correspond recursively. -/
theorem diffTrees_antisym (roots1 roots2 : List APINode)
    (t1 t2 : NormalizedTree) (ex : List String)
    (h1self : ∀ r ∈ roots1, treeLookup t1 r.qualifiedName = some r)
    (h2self : ∀ r ∈ roots2, treeLookup t2 r.qualifiedName = some r)
    (h12 : ∀ r ∈ roots1, ∀ r2, treeLookup t2 r.qualifiedName = some r2 →
      r2 ∈ roots2 ∧ r2.qualifiedName = r.qualifiedName)
    (h21 : ∀ r ∈ roots2, ∀ r1, treeLookup t1 r.qualifiedName = some r1 →
      r1 ∈ roots1 ∧ r1.qualifiedName = r.qualifiedName)
    (hnd1 : (roots1.map (fun r => r.qualifiedName)).Nodup)
    (hnd2 : (roots2.map (fun r => r.qualifiedName)).Nodup)
    (hkc : ∀ r ∈ roots1, ∀ r2, treeLookup t2 r.qualifiedName = some r2 →
      funcKindCoherent r r2 = true) :
    CorrL (diffTrees roots1 roots2 t1 t2 ex ex)
      (diffTrees roots2 roots1 t2 t1 ex ex) := by
  rw [diffTrees_decomp, diffTrees_decomp]
  have hstep1 : CorrL (roots1.flatMap (diffTreesL1 t1 t2 ex))
      (roots1.flatMap (fun r => diffTreesL2 t2 ex tagAdded r ++
        hitRev t2 t1 t2 ex r)) := by
    refine corrL_flatMap_same ?_
    intro r hr
    unfold diffTreesL1 diffTreesL2 hitRev
    by_cases hex : ex.contains r.qualifiedName = true
    · rw [if_pos hex, if_pos hex, if_pos hex]
      exact CorrL.nil
    · rw [if_neg hex, if_neg hex, if_neg hex]
      cases hl : treeLookup t2 r.qualifiedName with
      | none =>
          show CorrL [getJsonFromNode r tagRemoved]
            ([getJsonFromNode r tagAdded] ++ [])
          cases r with
          | mk a cs =>
              rw [getJsonFromNode_eq, getJsonFromNode_eq]
              exact CorrL.consRem _ _ _ _ [] [] [] CorrL.nil
      | some r2 =>
          show CorrL (diffNodes r r2 t1 t2) ([] ++ diffNodes r2 r t2 t1)
          exact diffNodes_antisym r r2 t1 t2 t2 t1
            ((h12 r hr r2 hl).2).symm (hkc r hr r2 hl)
  have hstep2 : CorrL (roots2.flatMap (diffTreesL2 t1 ex tagAdded))
      (roots2.flatMap (diffTreesL2 t1 ex tagRemoved)) := by
    refine corrL_flatMap_same ?_
    intro r hr
    unfold diffTreesL2
    by_cases hex : ex.contains r.qualifiedName = true
    · rw [if_pos hex, if_pos hex]
      exact CorrL.nil
    · rw [if_neg hex, if_neg hex]
      cases hl : treeLookup t1 r.qualifiedName with
      | none =>
          show CorrL [getJsonFromNode r tagAdded]
            [getJsonFromNode r tagRemoved]
          cases r with
          | mk a cs =>
              rw [getJsonFromNode_eq, getJsonFromNode_eq]
              exact CorrL.consAdd _ _ _ _ [] [] [] CorrL.nil
      | some r1 =>
          show CorrL [] []
          exact CorrL.nil
  refine corrL_perm_right (corrL_append hstep1 hstep2) ?_
  have hP2 := hit_perm roots1 roots2 t1 t2 ex h1self h2self h12 h21 hnd1 hnd2
  have perm1 : (roots1.flatMap (fun r => diffTreesL2 t2 ex tagAdded r ++
      hitRev t2 t1 t2 ex r)).Perm
      (roots1.flatMap (diffTreesL2 t2 ex tagAdded) ++
        roots2.flatMap (hitFwd t2 t1 ex)) :=
    (flatMap_append_perm _ _ roots1).trans
      (List.Perm.append_left _ hP2)
  have hsplitC : roots2.flatMap (diffTreesL1 t2 t1 ex) =
      roots2.flatMap (fun x => diffTreesL2 t1 ex tagRemoved x ++
        hitFwd t2 t1 ex x) :=
    flatMap_congr_mem (fun x _ => diffTreesL1_split t2 t1 ex x)
  have perm2 : (roots2.flatMap (diffTreesL1 t2 t1 ex) ++
      roots1.flatMap (diffTreesL2 t2 ex tagAdded)).Perm
      ((roots2.flatMap (diffTreesL2 t1 ex tagRemoved) ++
        roots2.flatMap (hitFwd t2 t1 ex)) ++
        roots1.flatMap (diffTreesL2 t2 ex tagAdded)) := by
    rw [hsplitC]
    exact List.Perm.append_right _ (flatMap_append_perm _ _ roots2)
  have hmid : ((roots1.flatMap (diffTreesL2 t2 ex tagAdded) ++
      roots2.flatMap (hitFwd t2 t1 ex)) ++
      roots2.flatMap (diffTreesL2 t1 ex tagRemoved)).Perm
      ((roots2.flatMap (diffTreesL2 t1 ex tagRemoved) ++
        roots2.flatMap (hitFwd t2 t1 ex)) ++
        roots1.flatMap (diffTreesL2 t2 ex tagAdded)) := by
    refine (List.perm_append_comm).trans ?_
    rw [List.append_assoc]
    exact List.Perm.append_left _ List.perm_append_comm
  exact ((List.Perm.append_right _ perm1).trans hmid).trans perm2.symm

/-- Witness for the amended C5 at a concrete coherent pair of contexts
(struct `S` with a field changing type, no exclusions). -/
theorem diffTrees_antisym_witness :
    (∀ r ∈ [c5SA], treeLookup [("S", c5SA)] r.qualifiedName = some r) ∧
    (∀ r ∈ [c5SB], treeLookup [("S", c5SB)] r.qualifiedName = some r) ∧
    (∀ r ∈ [c5SA], ∀ r2, treeLookup [("S", c5SB)] r.qualifiedName = some r2 →
      r2 ∈ [c5SB] ∧ r2.qualifiedName = r.qualifiedName) ∧
    (∀ r ∈ [c5SB], ∀ r1, treeLookup [("S", c5SA)] r.qualifiedName = some r1 →
      r1 ∈ [c5SA] ∧ r1.qualifiedName = r.qualifiedName) ∧
    (([c5SA].map (fun r => r.qualifiedName)).Nodup) ∧
    (([c5SB].map (fun r => r.qualifiedName)).Nodup) ∧
    (∀ r ∈ [c5SA], ∀ r2, treeLookup [("S", c5SB)] r.qualifiedName = some r2 →
      funcKindCoherent r r2 = true) ∧
    CorrL (diffTrees [c5SA] [c5SB] [("S", c5SA)] [("S", c5SB)] [] [])
      (diffTrees [c5SB] [c5SA] [("S", c5SB)] [("S", c5SA)] [] []) := by
  have h1self : ∀ r ∈ [c5SA], treeLookup [("S", c5SA)] r.qualifiedName =
      some r := by
    intro r hr
    rcases List.mem_singleton.mp hr with rfl
    rfl
  have h2self : ∀ r ∈ [c5SB], treeLookup [("S", c5SB)] r.qualifiedName =
      some r := by
    intro r hr
    rcases List.mem_singleton.mp hr with rfl
    rfl
  have h12 : ∀ r ∈ [c5SA], ∀ r2,
      treeLookup [("S", c5SB)] r.qualifiedName = some r2 →
      r2 ∈ [c5SB] ∧ r2.qualifiedName = r.qualifiedName := by
    intro r hr r2 hl
    rcases List.mem_singleton.mp hr with rfl
    rw [show treeLookup [("S", c5SB)] c5SA.qualifiedName = some c5SB
      from rfl] at hl
    cases Option.some.inj hl
    exact ⟨List.mem_singleton_self _, rfl⟩
  have h21 : ∀ r ∈ [c5SB], ∀ r1,
      treeLookup [("S", c5SA)] r.qualifiedName = some r1 →
      r1 ∈ [c5SA] ∧ r1.qualifiedName = r.qualifiedName := by
    intro r hr r1 hl
    rcases List.mem_singleton.mp hr with rfl
    rw [show treeLookup [("S", c5SA)] c5SB.qualifiedName = some c5SA
      from rfl] at hl
    cases Option.some.inj hl
    exact ⟨List.mem_singleton_self _, rfl⟩
  have hnd1 : (([c5SA].map (fun r => r.qualifiedName)).Nodup) := by simp
  have hnd2 : (([c5SB].map (fun r => r.qualifiedName)).Nodup) := by simp
  have hx : funcKindCoherent c5xA c5xB = true := by
    rw [funcKindCoherent_eq]
    decide
  have hkc : ∀ r ∈ [c5SA], ∀ r2,
      treeLookup [("S", c5SB)] r.qualifiedName = some r2 →
      funcKindCoherent r r2 = true := by
    intro r hr r2 hl
    rcases List.mem_singleton.mp hr with rfl
    rw [show treeLookup [("S", c5SB)] c5SA.qualifiedName = some c5SB
      from rfl] at hl
    cases Option.some.inj hl
    rw [funcKindCoherent_eq]
    rw [show intersection c5SA.children c5SB.children byQualifiedName =
      [(c5xA, c5xB)] from rfl]
    rw [if_pos (show (hasChildrenB c5SA && hasChildrenB c5SB) = true
      from rfl)]
    simp only [List.all_cons, List.all_nil]
    rw [hx]
    decide
  exact ⟨h1self, h2self, h12, h21, hnd1, hnd2, hkc,
    diffTrees_antisym [c5SA] [c5SB] [("S", c5SA)] [("S", c5SB)] []
      h1self h2self h12 h21 hnd1 hnd2 hkc⟩

end Armor
